import Mathlib

/-!
Shallow embedding of `src/bin/index.js` (minify-modules), a dependency-tree
shrinker: a classifier over file names, two transactional compressors (JS
minification via the external Terser collaborator, JSON compaction via the
platform JSON builtins), a recursive tree walker accumulating statistics, and
the orchestrating run.

Modelling conventions:
- JavaScript strings are modelled as Lean `String`/`List Char`; `.length` is
  the character count (the embedding's witnesses use ASCII data, where JS
  UTF-16 code-unit length coincides).
- The external filesystem collaborator is modelled by per-file failure flags
  (`FsOracle`); a failing operation is modelled at the exact point the source
  awaits it, and an uncaught rejection is an `Except.error`.
- The external Terser minifier is a parameter `minify : String → Option String`
  (`none` models a rejected promise or a result without `code`).
- `JSON.parse` / `JSON.stringify` are platform builtins not present in the
  repository; they are modelled from the spec (see `jsonParse`/`jsonStringify`
  below).
-/

namespace MinifyModules

/-! ## Constants from the source (src/bin/index.js lines 8-12) -/

def EXT_JS : String := ".js"

def EXT_JSON : String := ".json"

def EXT_MD : String := ".md"

def EXT_TS : String := ".ts"

def ESLINT_FILES : List String :=
  [".eslintrc", ".eslintrc.js", ".eslintrc.json", ".eslintrc.yml",
   ".eslintrc.yaml", ".eslintrc.cjs", ".eslintrc.config.js",
   ".eslintrc.config.cjs", ".eslintrc.base.js", ".eslintrc.base.cjs",
   ".eslintrc.jsonc", ".eslintrc.ymlc", ".eslintrc.yamlc", ".eslintrc.toml",
   ".eslintrc.cjson", ".eslintrc.json5", ".eslintrc5", ".eslintignore",
   ".eslintcache", ".eslintresult"]

/-! ## Node's `path.extname` on a basename

The walker only ever applies `path.extname` to a `readdir` entry name or to
`path.join(dir, name)`; on both the result is determined by the basename
`name` (the last path component, which contains no separator). The model below
reproduces Node's algorithm restricted to such basenames: the slice from the
last `'.'` to the end, except that there is no extension when there is no dot,
when the only dot is the leading character, or for the special name `".."`. -/

def extname (name : String) : String :=
  let cs := name.data
  let pre := cs.reverse.takeWhile (fun c => ¬ (c = '.'))
  if pre.length = cs.length then ""
  else if pre.length + 1 = cs.length then ""
  else if cs = ['.', '.'] then ""
  else String.mk ('.' :: pre.reverse)

/-- JavaScript's `String.prototype.toLowerCase` on the ASCII names the
classifier compares (the fixed `ESLINT_FILES` entries are ASCII). -/
def strToLower (s : String) : String :=
  String.mk (s.data.map Char.toLower)

/-! ## The classifier (src/bin/index.js lines 64-90)

`processFile` deletes when the extension is `.md`/`.ts` or the lowercased name
is in `ESLINT_FILES`; otherwise `compressFile` dispatches on `.js`/`.json` and
silently skips anything else. The decision is a pure function of the name. -/

def delCond (name : String) : Prop :=
  extname name = EXT_MD ∨ extname name = EXT_TS ∨ strToLower name ∈ ESLINT_FILES

instance (name : String) : Decidable (delCond name) := by
  unfold delCond; infer_instance

inductive Decision where
  | delete
  | compressJS
  | compressJSON
  | skip
deriving DecidableEq, Repr

def classify (name : String) : Decision :=
  if delCond name then .delete
  else if extname name = EXT_JS then .compressJS
  else if extname name = EXT_JSON then .compressJSON
  else .skip

/-! ## Statistics (src/bin/index.js lines 14-20) -/

structure Stats where
  jsFilesCompressed : Nat
  jsonFilesCompressed : Nat
  deletedFiles : Nat
  spaceSaved : Nat
  spaceFreed : Nat
deriving DecidableEq, Repr

def zeroStats : Stats :=
  { jsFilesCompressed := 0, jsonFilesCompressed := 0, deletedFiles := 0,
    spaceSaved := 0, spaceFreed := 0 }

def Stats.add (a b : Stats) : Stats :=
  { jsFilesCompressed := a.jsFilesCompressed + b.jsFilesCompressed,
    jsonFilesCompressed := a.jsonFilesCompressed + b.jsonFilesCompressed,
    deletedFiles := a.deletedFiles + b.deletedFiles,
    spaceSaved := a.spaceSaved + b.spaceSaved,
    spaceFreed := a.spaceFreed + b.spaceFreed }

/-- Delta recorded by the delete branch (lines 70-71): one deleted file and
its stat-reported size. -/
def deleteDelta (size : Nat) : Stats :=
  { zeroStats with deletedFiles := 1, spaceFreed := size }

/-- Delta recorded by a successful JS compression (lines 112-113). -/
def jsDelta (saved : Nat) : Stats :=
  { zeroStats with jsFilesCompressed := 1, spaceSaved := saved }

/-- Delta recorded by a successful JSON compression (lines 128-129). -/
def jsonDelta (saved : Nat) : Stats :=
  { zeroStats with jsonFilesCompressed := 1, spaceSaved := saved }

/-! ## JSON values, parsing and compaction

Modelled from the spec: the source calls the platform builtins `JSON.parse`
and `JSON.stringify` (src/bin/index.js lines 124-125), which are not part of
the repository. Following the spec ("parse as JSON", "re-serialize with no
insignificant whitespace", "Compaction (JSON): re-serializing parsed
structured data without non-significant whitespace"), `jsonParse` is a
recursive-descent parser for JSON texts and `jsonStringify` re-serializes a
parsed value with no insignificant whitespace. Idealizations: numbers are
exact decimals `m * 10 ^ e` (no IEEE-754 rounding or overflow), duplicate
object keys are kept in order rather than collapsed to the last occurrence,
and strings are sequences of Unicode scalar values. -/

/-- Decimal digit character for a value below ten. -/
def digitChar (n : Nat) : Char :=
  match n with
  | 0 => '0' | 1 => '1' | 2 => '2' | 3 => '3' | 4 => '4'
  | 5 => '5' | 6 => '6' | 7 => '7' | 8 => '8' | _ => '9'

def digitVal (c : Char) : Nat := c.toNat - 48

def digitsToNat (ds : List Char) : Nat :=
  ds.foldl (fun a c => 10 * a + digitVal c) 0

/-- Fuel-indexed decimal printer for naturals; `fuel > n` is always enough. -/
def natDigitsF : Nat → Nat → List Char
  | 0, _ => []
  | fuel + 1, n =>
      if n < 10 then [digitChar n]
      else natDigitsF fuel (n / 10) ++ [digitChar (n % 10)]

def natDigits (n : Nat) : List Char := natDigitsF (n + 1) n

/-- Lowercase hexadecimal digit character for a value below sixteen. -/
def hexDigitChar (n : Nat) : Char :=
  match n with
  | 0 => '0' | 1 => '1' | 2 => '2' | 3 => '3' | 4 => '4'
  | 5 => '5' | 6 => '6' | 7 => '7' | 8 => '8' | 9 => '9'
  | 10 => 'a' | 11 => 'b' | 12 => 'c' | 13 => 'd' | 14 => 'e' | _ => 'f'

def isHexDigit (c : Char) : Bool :=
  c.isDigit || ('a' ≤ c && c ≤ 'f') || ('A' ≤ c && c ≤ 'F')

def hexVal (c : Char) : Nat :=
  if c.isDigit then c.toNat - 48
  else if 'a' ≤ c && c ≤ 'f' then c.toNat - 87
  else if 'A' ≤ c && c ≤ 'F' then c.toNat - 55
  else 0

/-- Insignificant whitespace accepted by the JSON grammar. -/
def isJsonWs (c : Char) : Bool :=
  c = ' ' || c = '\t' || c = '\n' || c = '\r'

def skipWs (s : List Char) : List Char := s.dropWhile isJsonWs

/-- Fuel-indexed removal of trailing decimal zero factors; `fuel > n` is
always enough. Returns the reduced value and the number of factors removed. -/
def stripTensF : Nat → Nat → Nat × Nat
  | 0, n => (n, 0)
  | fuel + 1, n =>
      if n ≠ 0 ∧ n % 10 = 0 then
        let p := stripTensF fuel (n / 10)
        (p.1, p.2 + 1)
      else (n, 0)

def stripTens (n : Nat) : Nat × Nat := stripTensF (n + 1) n

/-- Normal form of an exact decimal `m * 10 ^ e`: zero is `(0, 0)`, any other
mantissa carries no trailing decimal zeros. This identifies the decimal texts
that denote the same number (`1.0`, `1`, `0.1e1`, ...). -/
def normNum (m e : Int) : Int × Int :=
  if m = 0 then (0, 0)
  else
    let p := stripTens m.natAbs
    (if m < 0 then -(p.1 : Int) else (p.1 : Int), e + (p.2 : Int))

mutual

inductive Json where
  | null : Json
  | bool (b : Bool) : Json
  | num (m e : Int) : Json
  | str (s : List Char) : Json
  | arr (elems : JsonList) : Json
  | obj (fields : JsonFields) : Json

inductive JsonList where
  | nil : JsonList
  | cons (hd : Json) (tl : JsonList) : JsonList

inductive JsonFields where
  | nil : JsonFields
  | cons (key : List Char) (val : Json) (tl : JsonFields) : JsonFields

end

/-- Code point denoted by a single-character string escape, when legal. -/
def escCode (c : Char) : Option Char :=
  if c = '"' then some '"'
  else if c = '\\' then some '\\'
  else if c = '/' then some '/'
  else if c = 'b' then some '\x08'
  else if c = 'f' then some '\x0c'
  else if c = 'n' then some '\n'
  else if c = 'r' then some '\r'
  else if c = 't' then some '\t'
  else none

/-- Parses the body of a JSON string after the opening quote, returning the
decoded characters and the input after the closing quote. -/
def parseStrChars : List Char → Option (List Char × List Char)
  | [] => none
  | c :: rest =>
      if c = '"' then some ([], rest)
      else if c = '\\' then
        match rest with
        | 'u' :: h1 :: h2 :: h3 :: h4 :: r =>
            if isHexDigit h1 && isHexDigit h2 && isHexDigit h3 && isHexDigit h4 then
              match parseStrChars r with
              | some (cs, r2) =>
                  some (Char.ofNat
                    (((hexVal h1 * 16 + hexVal h2) * 16 + hexVal h3) * 16 + hexVal h4) :: cs, r2)
              | none => none
            else none
        | d :: r =>
            match escCode d with
            | some dc =>
                match parseStrChars r with
                | some (cs, r2) => some (dc :: cs, r2)
                | none => none
            | none => none
        | [] => none
      else
        match parseStrChars rest with
        | some (cs, r2) => some (c :: cs, r2)
        | none => none
termination_by structural s => s

/-- Reads a nonempty run of decimal digits. -/
def readDigits (s : List Char) : Option (List Char × List Char) :=
  let ds := s.takeWhile Char.isDigit
  if ds.isEmpty then none else some (ds, s.dropWhile Char.isDigit)

/-- Consumes a leading minus sign. -/
def splitNeg (s : List Char) : Bool × List Char :=
  match s with
  | c :: r => if c = '-' then (true, r) else (false, c :: r)
  | [] => (false, [])

/-- Consumes a leading exponent sign (minus or plus). -/
def splitExpSign (s : List Char) : Bool × List Char :=
  match s with
  | c :: r =>
      if c = '-' then (true, r)
      else if c = '+' then (false, r)
      else (false, c :: r)
  | [] => (false, [])

/-- Consumes an optional fraction part, returning its digits. -/
def parseFrac (s : List Char) : Option (List Char × List Char) :=
  match s with
  | c :: r => if c = '.' then readDigits r else some ([], c :: r)
  | [] => some ([], [])

/-- Consumes an optional exponent part, returning its signed value. -/
def parseExp (s : List Char) : Option (Int × List Char) :=
  match s with
  | c :: r =>
      if c = 'e' ∨ c = 'E' then
        let p := splitExpSign r
        match readDigits p.2 with
        | some (eds, r2) =>
            some ((if p.1 then -(digitsToNat eds : Int) else (digitsToNat eds : Int)), r2)
        | none => none
      else some (0, c :: r)
  | [] => some (0, [])

/-- Parses a JSON number (optional sign, integer part, optional fraction,
optional exponent) into its exact normalized decimal value. -/
def parseNumber (s : List Char) : Option ((Int × Int) × List Char) :=
  let p := splitNeg s
  match readDigits p.2 with
  | none => none
  | some (ds, s2) =>
      match parseFrac s2 with
      | none => none
      | some (fds, s3) =>
          match parseExp s3 with
          | none => none
          | some (ex, s4) =>
              let mNat := digitsToNat (ds ++ fds)
              let m0 : Int := if p.1 then -(mNat : Int) else (mNat : Int)
              some (normNum m0 (ex - (fds.length : Int)), s4)

mutual

def parseValue : Nat → List Char → Option (Json × List Char)
  | 0, _ => none
  | fuel + 1, s0 =>
      match skipWs s0 with
      | [] => none
      | c :: rest =>
          if c = 'n' then
            match rest with
            | 'u' :: 'l' :: 'l' :: r => some (.null, r)
            | _ => none
          else if c = 't' then
            match rest with
            | 'r' :: 'u' :: 'e' :: r => some (.bool true, r)
            | _ => none
          else if c = 'f' then
            match rest with
            | 'a' :: 'l' :: 's' :: 'e' :: r => some (.bool false, r)
            | _ => none
          else if c = '"' then
            match parseStrChars rest with
            | some (cs, r) => some (.str cs, r)
            | none => none
          else if c = '[' then
            match skipWs rest with
            | ']' :: r => some (.arr .nil, r)
            | r1 =>
                match parseElems fuel r1 with
                | some (l, r2) => some (.arr l, r2)
                | none => none
          else if c = '\x7b' then
            match skipWs rest with
            | '\x7d' :: r => some (.obj .nil, r)
            | r1 =>
                match parseFields fuel r1 with
                | some (fs, r2) => some (.obj fs, r2)
                | none => none
          else
            match parseNumber (c :: rest) with
            | some ((m, e), r) => some (.num m e, r)
            | none => none

def parseElems : Nat → List Char → Option (JsonList × List Char)
  | 0, _ => none
  | fuel + 1, s =>
      match parseValue fuel s with
      | none => none
      | some (v, r) =>
          match skipWs r with
          | ',' :: r2 =>
              match parseElems fuel r2 with
              | some (l, r3) => some (.cons v l, r3)
              | none => none
          | ']' :: r2 => some (.cons v .nil, r2)
          | _ => none

def parseFields : Nat → List Char → Option (JsonFields × List Char)
  | 0, _ => none
  | fuel + 1, s =>
      match skipWs s with
      | '"' :: r =>
          match parseStrChars r with
          | none => none
          | some (k, r1) =>
              match skipWs r1 with
              | ':' :: r2 =>
                  match parseValue fuel r2 with
                  | none => none
                  | some (v, r3) =>
                      match skipWs r3 with
                      | ',' :: r4 =>
                          match parseFields fuel r4 with
                          | some (fs, r5) => some (.cons k v fs, r5)
                          | none => none
                      | '\x7d' :: r4 => some (.cons k v .nil, r4)
                      | _ => none
              | _ => none
      | _ => none

end

def jsonParseL (cs : List Char) : Option Json :=
  match parseValue (2 * cs.length + 4) cs with
  | some (v, rest) => if skipWs rest = [] then some v else none
  | none => none

/-- Model of `JSON.parse`: parses the whole text (with optional surrounding
whitespace) or fails. -/
def jsonParse (s : String) : Option Json := jsonParseL s.data

/-- Escape sequence emitted for one character of a serialized string. -/
def escChar (c : Char) : List Char :=
  if c = '"' then ['\\', '"']
  else if c = '\\' then ['\\', '\\']
  else if c = '\x08' then ['\\', 'b']
  else if c = '\x0c' then ['\\', 'f']
  else if c = '\n' then ['\\', 'n']
  else if c = '\r' then ['\\', 'r']
  else if c = '\t' then ['\\', 't']
  else if c.toNat < 32 then
    let hi := hexDigitChar (c.toNat / 16)
    let lo := hexDigitChar (c.toNat % 16)
    ['\\', 'u', '0', '0', hi, lo]
  else [c]

def escString (s : List Char) : List Char :=
  s.foldr (fun c acc => escChar c ++ acc) []

/-- Prints a normalized decimal: the mantissa, then a power-of-ten exponent
when it is nonzero. Valid JSON number syntax denoting exactly `m * 10 ^ e`. -/
def printNum (m e : Int) : List Char :=
  (if m < 0 then ['-'] else []) ++ natDigits m.natAbs ++
    (if e = 0 then []
     else 'e' :: ((if e < 0 then ['-'] else []) ++ natDigits e.natAbs))

mutual

def printValue : Json → List Char
  | .null => ("null").data
  | .bool true => ("true").data
  | .bool false => ("false").data
  | .num m e => printNum m e
  | .str s => '"' :: (escString s ++ ['"'])
  | .arr l => '[' :: (printList l ++ [']'])
  | .obj fs => '\x7b' :: (printFields fs ++ ['\x7d'])

def printList : JsonList → List Char
  | .nil => []
  | .cons h .nil => printValue h
  | .cons h (.cons h2 t) => printValue h ++ ',' :: printList (.cons h2 t)

def printFields : JsonFields → List Char
  | .nil => []
  | .cons k v .nil => '"' :: (escString k ++ ['"']) ++ ':' :: printValue v
  | .cons k v (.cons k2 v2 t) =>
      '"' :: (escString k ++ ['"']) ++ ':' :: printValue v ++
        ',' :: printFields (.cons k2 v2 t)

end

/-- Model of `JSON.stringify` on parsed values: compact serialization with no
insignificant whitespace. -/
def jsonStringify (v : Json) : String := String.mk (printValue v)

/-! ## Auxiliary measures and predicates used by the statements -/

/-- Normal form invariant for exact decimals produced by `normNum`. -/
def canonNum (m e : Int) : Prop :=
  (m = 0 → e = 0) ∧ (m ≠ 0 → m.natAbs % 10 ≠ 0)

mutual

def canonV : Json → Prop
  | .null => True
  | .bool _ => True
  | .num m e => canonNum m e
  | .str _ => True
  | .arr l => canonL l
  | .obj fs => canonF fs

def canonL : JsonList → Prop
  | .nil => True
  | .cons h t => canonV h ∧ canonL t

def canonF : JsonFields → Prop
  | .nil => True
  | .cons _ v t => canonV v ∧ canonF t

end

mutual

def sizeV : Json → Nat
  | .null => 1
  | .bool _ => 1
  | .num _ _ => 1
  | .str _ => 1
  | .arr l => 1 + sizeL l
  | .obj fs => 1 + sizeF fs

def sizeL : JsonList → Nat
  | .nil => 1
  | .cons h t => 1 + sizeV h + sizeL t

def sizeF : JsonFields → Nat
  | .nil => 1
  | .cons _ v t => 1 + sizeV v + sizeF t

end

/-- The characters that may legally follow a printed value inside a larger
printed text: nothing, or a separator or closing bracket. -/
def Boundary (t : List Char) : Prop :=
  t = [] ∨ ∃ c r, t = c :: r ∧ (c = ',' ∨ c = ']' ∨ c = '\x7d')

/-- The characters after a printed number must not extend the numeral. -/
def NumBoundary (t : List Char) : Prop :=
  ∀ c, t.head? = some c →
    c.isDigit = false ∧ c ≠ '.' ∧ c ≠ 'e' ∧ c ≠ 'E'

/-! ## The import/export marker heuristic (src/bin/index.js line 108)

The regular expression `/import\s|export\s/` matches anywhere in the text:
the word `import` or `export` immediately followed by a JavaScript
whitespace character. -/

/-- JavaScript's regular-expression whitespace class `\s`. -/
def isJsWs (c : Char) : Bool :=
  c = ' ' || c = '\t' || c = '\n' || c = '\r' || c = '\x0b' || c = '\x0c' ||
  c.toNat = 0xa0 || c.toNat = 0x1680 ||
  (0x2000 ≤ c.toNat && c.toNat ≤ 0x200a) ||
  c.toNat = 0x2028 || c.toNat = 0x2029 || c.toNat = 0x202f ||
  c.toNat = 0x205f || c.toNat = 0x3000 || c.toNat = 0xfeff

/-- Whether the regex matches at the start of the character list. -/
def markerAt (cs : List Char) : Bool :=
  match cs with
  | 'i' :: 'm' :: 'p' :: 'o' :: 'r' :: 't' :: c :: _ => isJsWs c
  | 'e' :: 'x' :: 'p' :: 'o' :: 'r' :: 't' :: c :: _ => isJsWs c
  | _ => false

def hasMarkerL : List Char → Bool
  | [] => false
  | c :: rest => markerAt (c :: rest) || hasMarkerL rest

/-- Model of `/import\s|export\s/.test(text)`. -/
def hasImportExportMarker (s : String) : Bool := hasMarkerL s.data

/-! ## Per-file processing (src/bin/index.js lines 64-134)

The `Except` layer mirrors JavaScript exception flow: `Except.error` is an
uncaught rejection at that level and each `try`/`catch` of the source appears
as an explicit `match` on it. `FsOracle` injects the external filesystem
failures for one file; `minify` is the external Terser collaborator, `none`
modelling a rejected `Terser.minify` promise or a result whose `code` is
absent. -/

structure FileState where
  name : String
  content : String
  size : Nat
deriving DecidableEq, Repr

structure FsOracle where
  statFails : Bool
  unlinkFails : Bool
  readFails : Bool
  writeFails : Bool
deriving DecidableEq, Repr

def noFailure : FsOracle :=
  { statFails := false, unlinkFails := false, readFails := false, writeFails := false }

inductive DiskOutcome where
  | deleted
  | kept (content : String)
deriving DecidableEq, Repr

/-- `compressJavaScriptFile` (lines 105-119): the read is outside the `try`,
so a read failure propagates; everything after it is caught locally. A file
with an `import`/`export` statement marker is skipped; otherwise the minified
code is written back only when truthy (nonempty) and strictly shorter. -/
def compressJavaScriptFileE (minify : String → Option String) (f : FileState)
    (o : FsOracle) : Except Unit (DiskOutcome × Stats) :=
  if o.readFails then .error () else
  let body : Except Unit (DiskOutcome × Stats) :=
    if hasImportExportMarker f.content then .ok (.kept f.content, zeroStats)
    else
      match minify f.content with
      | none => .error ()
      | some code =>
          if code ≠ "" ∧ code.length < f.content.length then
            if o.writeFails then .error ()
            else .ok (.kept code, jsDelta (f.content.length - code.length))
          else .ok (.kept f.content, zeroStats)
  match body with
  | .ok r => .ok r
  | .error _ => .ok (.kept f.content, zeroStats)

/-- `compressJsonFile` (lines 121-134): the read is outside the `try`; parse
and write failures are caught locally; the compacted text is written back
only when strictly shorter. -/
def compressJsonFileE (f : FileState) (o : FsOracle) :
    Except Unit (DiskOutcome × Stats) :=
  if o.readFails then .error () else
  let body : Except Unit (DiskOutcome × Stats) :=
    match jsonParse f.content with
    | none => .error ()
    | some v =>
        let c := jsonStringify v
        if c.length < f.content.length then
          if o.writeFails then .error ()
          else .ok (.kept c, jsonDelta (f.content.length - c.length))
        else .ok (.kept f.content, zeroStats)
  match body with
  | .ok r => .ok r
  | .error _ => .ok (.kept f.content, zeroStats)

/-- `compressFile` (lines 77-90): dispatch on the extension inside a
`try`/`catch` that swallows any error; other extensions are skipped. The
extension of the joined path equals the extension of the entry name. -/
def compressFileE (minify : String → Option String) (f : FileState)
    (o : FsOracle) : Except Unit (DiskOutcome × Stats) :=
  let inner : Except Unit (DiskOutcome × Stats) :=
    if extname f.name = EXT_JS then compressJavaScriptFileE minify f o
    else if extname f.name = EXT_JSON then compressJsonFileE f o
    else .ok (.kept f.content, zeroStats)
  match inner with
  | .ok r => .ok r
  | .error _ => .ok (.kept f.content, zeroStats)

/-- `processFile` (lines 64-75): the delete branch stats the file (an
uncaught rejection if it fails), attempts `unlink` with a `.catch` that only
logs, and then unconditionally counts the file as deleted and its size as
freed; otherwise the file is handed to `compressFile`. -/
def processFileE (minify : String → Option String) (f : FileState)
    (o : FsOracle) : Except Unit (DiskOutcome × Stats) :=
  if delCond f.name then
    if o.statFails then .error ()
    else
      .ok ((if o.unlinkFails then .kept f.content else .deleted),
           deleteDelta f.size)
  else compressFileE minify f o

/-! ## The tree walker (src/bin/index.js lines 52-62)

`processDirectory` awaits each entry in order with no `try`/`catch`: an
uncaught per-file rejection aborts the remaining traversal. An aborted walk
still keeps the statistics mutated so far (the source accumulates into a
shared record), so the error case also carries the partial outcomes and
statistics. -/

mutual

inductive Entry where
  | file (f : FileState) (o : FsOracle) : Entry
  | dir (sub : EntryList) : Entry

inductive EntryList where
  | nil : EntryList
  | cons (hd : Entry) (tl : EntryList) : EntryList

end

mutual

def processEntryE (minify : String → Option String) :
    Entry → Except (List DiskOutcome × Stats) (List DiskOutcome × Stats)
  | .file f o =>
      match processFileE minify f o with
      | .ok (d, s) => .ok ([d], s)
      | .error _ => .error ([.kept f.content], zeroStats)
  | .dir sub => processEntriesE minify sub
termination_by structural e => e

def processEntriesE (minify : String → Option String) :
    EntryList → Except (List DiskOutcome × Stats) (List DiskOutcome × Stats)
  | .nil => .ok ([], zeroStats)
  | .cons e es =>
      match processEntryE minify e with
      | .error (ds, s) => .error (ds, s)
      | .ok (ds, s) =>
          match processEntriesE minify es with
          | .ok (ds2, s2) => .ok (ds ++ ds2, s.add s2)
          | .error (ds2, s2) => .error (ds ++ ds2, s.add s2)
termination_by structural es => es

end

mutual

def fileCountEntry : Entry → Nat
  | .file _ _ => 1
  | .dir sub => fileCountEntries sub

def fileCountEntries : EntryList → Nat
  | .nil => 0
  | .cons e es => fileCountEntry e + fileCountEntries es

end

/-- Statistics delta contributed by one file (zero if its processing aborts
before mutating them). -/
def fileDelta (minify : String → Option String) (f : FileState) (o : FsOracle) : Stats :=
  match processFileE minify f o with
  | .ok (_, s) => s
  | .error _ => zeroStats

mutual

def freedSumEntry (minify : String → Option String) : Entry → Nat
  | .file f o =>
      if classify f.name = .delete then (fileDelta minify f o).spaceFreed else 0
  | .dir sub => freedSumEntries minify sub

def freedSumEntries (minify : String → Option String) : EntryList → Nat
  | .nil => 0
  | .cons e es => freedSumEntry minify e + freedSumEntries minify es

end

mutual

def savedSumEntry (minify : String → Option String) : Entry → Nat
  | .file f o =>
      if classify f.name = .compressJS ∨ classify f.name = .compressJSON then
        (fileDelta minify f o).spaceSaved
      else 0
  | .dir sub => savedSumEntries minify sub

def savedSumEntries (minify : String → Option String) : EntryList → Nat
  | .nil => 0
  | .cons e es => savedSumEntry minify e + savedSumEntries minify es

end

/-! ## The orchestrator (src/bin/index.js lines 22-50 and 136-141)

`deleteAndCompress` wraps removal of the target directory, the package
manager invocation, and the walk in one `try`/`catch` whose handler only
logs; the trailing `.then` therefore always fires and prints the summary of
the shared statistics record. `rmFails` models a rejected `fs.rm`, and
`npmFails` a nonzero exit of the `npm install --omit=dev` command (rejected
by `executeCommand`). -/

structure RunInput where
  rmFails : Bool
  npmFails : Bool
  minify : String → Option String
  tree : EntryList

structure RunResult where
  walkerInvoked : Bool
  summary : Option Stats

def runProgram (inp : RunInput) : RunResult :=
  if inp.rmFails then { walkerInvoked := false, summary := some zeroStats }
  else if inp.npmFails then { walkerInvoked := false, summary := some zeroStats }
  else
    match processEntriesE inp.minify inp.tree with
    | .ok (_, s) => { walkerInvoked := true, summary := some s }
    | .error (_, s) => { walkerInvoked := true, summary := some s }

/-! ## Concrete fixtures used by the claim witnesses and counterexamples -/

/-- A minifier oracle that always fails (a rejected `Terser.minify`). -/
def minNone : String → Option String := fun _ => none

/-- A minifier oracle that always returns the empty string. -/
def minEmpty : String → Option String := fun _ => some ""

/-- A minifier oracle returning a fixed short result. -/
def minX : String → Option String := fun _ => some "x"

/-- A `readme.md` file of 2048 reported bytes. -/
def fileReadme : FileState :=
  { name := "readme.md"
    content := "# readme"
    size := 2048 }

/-- An oracle whose only failure is the unlink call. -/
def oUnlinkFails : FsOracle :=
  { statFails := false
    unlinkFails := true
    readFails := false
    writeFails := false }

/-- An oracle whose only failure is the read call. -/
def oReadFails : FsOracle :=
  { statFails := false
    unlinkFails := false
    readFails := true
    writeFails := false }

/-- A pretty-printed JSON file that compacts from 8 to 5 characters. -/
def fileDataJson : FileState :=
  { name := "data.json"
    content := "[ 1, 2 ]"
    size := 8 }

/-- A JS module file containing an `export` statement marker. -/
def fileIndexJs : FileState :=
  { name := "index.js"
    content := "export const x=1;"
    size := 17 }

/-- A whitespace-only JS file (its minification can come out empty). -/
def fileTinyJs : FileState :=
  { name := "tiny.js"
    content := "   "
    size := 3 }

/-- A run input whose package-manager reinstall fails. -/
def inpNpmFails : RunInput :=
  { rmFails := false
    npmFails := true
    minify := minNone
    tree := .nil }

/-- A tree mixing a failed deletion, a failed read, a JSON parse failure, a
throwing minification and one compressible sibling. -/
def treeMixed : EntryList :=
  .cons (.file fileReadme oUnlinkFails)
   (.cons (.dir
      (.cons (.file { name := "broken.json", content := "oops", size := 10 }
          noFailure)
       (.cons (.file { name := "lib.js", content := "var x = 1;", size := 10 }
          noFailure)
        .nil)))
    (.cons (.file { name := "util.js", content := "zzz", size := 3 } oReadFails)
     (.cons (.file fileDataJson noFailure)
      .nil)))

/-- A two-file tree: one deletable, one compressible. -/
def treeSmall : EntryList :=
  .cons (.file { name := "readme.md", content := "# readme", size := 100 }
      noFailure)
   (.cons (.file fileDataJson noFailure)
    .nil)

/-- The statistics the mixed tree produces. -/
def statsMixed : Stats :=
  { jsFilesCompressed := 0
    jsonFilesCompressed := 1
    deletedFiles := 1
    spaceSaved := 3
    spaceFreed := 2048 }

/-- The statistics the two-file tree produces. -/
def statsSmall : Stats :=
  { jsFilesCompressed := 0
    jsonFilesCompressed := 1
    deletedFiles := 1
    spaceSaved := 3
    spaceFreed := 100 }

/-- The parsed value of the witness text for the JSON round trip. -/
def vC8 : Json := .arr (.cons (.num 1 0) (.cons (.num 2 0) .nil))

/-! ## Character and digit lemmas -/

theorem isDigit_ne {c d : Char} (h : c.isDigit = true) (hd : d.isDigit = false) :
    c ≠ d := by
  intro he
  subst he
  rw [h] at hd
  exact Bool.noConfusion hd

theorem isJsonWs_eq_false_of_isDigit {c : Char} (h : c.isDigit = true) :
    isJsonWs c = false := by
  rcases Decidable.eq_or_ne c ' ' with rfl | h1
  · exact absurd h (by decide)
  rcases Decidable.eq_or_ne c '\t' with rfl | h2
  · exact absurd h (by decide)
  rcases Decidable.eq_or_ne c '\n' with rfl | h3
  · exact absurd h (by decide)
  rcases Decidable.eq_or_ne c '\r' with rfl | h4
  · exact absurd h (by decide)
  simp [isJsonWs, h1, h2, h3, h4]

theorem skipWs_cons {c : Char} {l : List Char} (h : isJsonWs c = false) :
    skipWs (c :: l) = c :: l := by
  simp [skipWs, List.dropWhile_cons, h]

theorem digitChar_isDigit (k : Nat) : (digitChar k).isDigit = true := by
  unfold digitChar
  split <;> decide

theorem digitVal_digitChar {k : Nat} (h : k < 10) : digitVal (digitChar k) = k := by
  interval_cases k <;> decide

theorem digitsToNat_append_one (xs : List Char) (c : Char) :
    digitsToNat (xs ++ [c]) = 10 * digitsToNat xs + digitVal c := by
  simp [digitsToNat, List.foldl_append]

theorem natDigitsF_digits :
    ∀ fuel n, n < fuel → ∀ c ∈ natDigitsF fuel n, c.isDigit = true := by
  intro fuel
  induction fuel with
  | zero => intro n hn; omega
  | succ fuel ih =>
    intro n hn c hc
    unfold natDigitsF at hc
    by_cases h10 : n < 10
    · rw [if_pos h10] at hc
      simp at hc
      subst hc
      exact digitChar_isDigit n
    · rw [if_neg h10] at hc
      rcases List.mem_append.mp hc with hc | hc
      · exact ih (n / 10) (by omega) c hc
      · simp at hc
        subst hc
        exact digitChar_isDigit (n % 10)

theorem natDigitsF_head :
    ∀ fuel n, n < fuel → ∃ d ds, natDigitsF fuel n = d :: ds ∧ d.isDigit = true := by
  intro fuel
  induction fuel with
  | zero => intro n hn; omega
  | succ fuel ih =>
    intro n hn
    unfold natDigitsF
    by_cases h10 : n < 10
    · rw [if_pos h10]
      exact ⟨digitChar n, [], rfl, digitChar_isDigit n⟩
    · rw [if_neg h10]
      obtain ⟨d, ds, heq, hd⟩ := ih (n / 10) (by omega)
      exact ⟨d, ds ++ [digitChar (n % 10)], by rw [heq]; rfl, hd⟩

theorem digitsToNat_natDigitsF :
    ∀ fuel n, n < fuel → digitsToNat (natDigitsF fuel n) = n := by
  intro fuel
  induction fuel with
  | zero => intro n hn; omega
  | succ fuel ih =>
    intro n hn
    unfold natDigitsF
    by_cases h10 : n < 10
    · rw [if_pos h10]
      show digitsToNat ([] ++ [digitChar n]) = n
      rw [digitsToNat_append_one]
      simp [digitsToNat, digitVal_digitChar h10]
    · rw [if_neg h10]
      rw [digitsToNat_append_one, ih (n / 10) (by omega),
        digitVal_digitChar (Nat.mod_lt n (by omega))]
      omega

theorem natDigits_digits (n : Nat) : ∀ c ∈ natDigits n, c.isDigit = true :=
  natDigitsF_digits (n + 1) n (Nat.lt_succ_self n)

theorem natDigits_head (n : Nat) :
    ∃ d ds, natDigits n = d :: ds ∧ d.isDigit = true :=
  natDigitsF_head (n + 1) n (Nat.lt_succ_self n)

theorem digitsToNat_natDigits (n : Nat) : digitsToNat (natDigits n) = n :=
  digitsToNat_natDigitsF (n + 1) n (Nat.lt_succ_self n)

/-! ## takeWhile and readDigits over a digit run -/

theorem takeWhile_append_all {p : Char → Bool} :
    ∀ ds t : List Char, (∀ c ∈ ds, p c = true) →
      (∀ c, t.head? = some c → p c = false) →
      (ds ++ t).takeWhile p = ds ∧ (ds ++ t).dropWhile p = t := by
  intro ds
  induction ds with
  | nil =>
    intro t _ ht
    cases t with
    | nil => simp
    | cons c r =>
      have hc := ht c rfl
      simp [List.takeWhile_cons, List.dropWhile_cons, hc]
  | cons d ds ih =>
    intro t hds ht
    have hd : p d = true := hds d (by simp)
    have hrec := ih t (fun c hc => hds c (by simp [hc])) ht
    simp [List.takeWhile_cons, List.dropWhile_cons, hd, hrec.1, hrec.2]

theorem readDigits_append {ds t : List Char} (hne : ds ≠ [])
    (hds : ∀ c ∈ ds, c.isDigit = true)
    (ht : ∀ c, t.head? = some c → c.isDigit = false) :
    readDigits (ds ++ t) = some (ds, t) := by
  obtain ⟨h1, h2⟩ := takeWhile_append_all ds t hds ht
  simp [readDigits, h1, h2, hne]

/-! ## Normalized decimals -/

theorem stripTensF_not {n : Nat} (fuel : Nat) (h : ¬(n ≠ 0 ∧ n % 10 = 0)) :
    stripTensF fuel n = (n, 0) := by
  cases fuel with
  | zero => rfl
  | succ fuel =>
    unfold stripTensF
    rw [if_neg h]

theorem stripTensF_spec :
    ∀ fuel n, n < fuel → n ≠ 0 →
      (stripTensF fuel n).1 ≠ 0 ∧ (stripTensF fuel n).1 % 10 ≠ 0 := by
  intro fuel
  induction fuel with
  | zero => intro n hn; omega
  | succ fuel ih =>
    intro n hn hne
    unfold stripTensF
    by_cases h : n ≠ 0 ∧ n % 10 = 0
    · rw [if_pos h]
      have h2 := ih (n / 10) (by omega) (by omega)
      simpa using h2
    · rw [if_neg h]
      exact ⟨hne, by omega⟩

theorem stripTens_spec {n : Nat} (hne : n ≠ 0) :
    (stripTens n).1 ≠ 0 ∧ (stripTens n).1 % 10 ≠ 0 :=
  stripTensF_spec (n + 1) n (Nat.lt_succ_self n) hne

theorem normNum_eq {m : Int} (e : Int) (hm : m ≠ 0) :
    normNum m e =
      (if m < 0 then -((stripTens m.natAbs).1 : Int) else ((stripTens m.natAbs).1 : Int),
       e + ((stripTens m.natAbs).2 : Int)) := by
  unfold normNum
  rw [if_neg hm]

theorem normNum_canon (m e : Int) : canonNum (normNum m e).1 (normNum m e).2 := by
  by_cases hm : m = 0
  · subst hm
    unfold normNum
    rw [if_pos rfl]
    exact ⟨fun _ => rfl, fun h => absurd rfl h⟩
  · rw [normNum_eq e hm]
    have ha : m.natAbs ≠ 0 := by omega
    obtain ⟨h1, h2⟩ := stripTens_spec ha
    constructor
    · intro h0
      exfalso
      by_cases hneg : m < 0
      · rw [if_pos hneg] at h0
        simp only [] at h0
        omega
      · rw [if_neg hneg] at h0
        simp only [] at h0
        omega
    · intro _
      by_cases hneg : m < 0
      · rw [if_pos hneg]
        simpa using h2
      · rw [if_neg hneg]
        simpa using h2

theorem normNum_fixed {m e : Int} (h : canonNum m e) : normNum m e = (m, e) := by
  by_cases hm : m = 0
  · subst hm
    unfold normNum
    rw [if_pos rfl, h.1 rfl]
  · rw [normNum_eq e hm]
    have h10 := h.2 hm
    have hst : stripTens m.natAbs = (m.natAbs, 0) :=
      stripTensF_not _ (by omega)
    rw [hst]
    by_cases hneg : m < 0
    · rw [if_pos hneg]
      have h1 : -((m.natAbs : Int)) = m := by omega
      rw [h1]
      simp
    · rw [if_neg hneg]
      have h1 : ((m.natAbs : Int)) = m := by omega
      rw [h1]
      simp

/-! ## Number parsing round trip -/

theorem parseExp_print {e : Int} (t : List Char)
    (htD : ∀ c, t.head? = some c → c.isDigit = false) :
    parseExp ('e' :: ((if e < 0 then ['-'] else []) ++ (natDigits e.natAbs ++ t))) =
      some (e, t) := by
  obtain ⟨d, ds, hA, hd⟩ := natDigits_head e.natAbs
  have hrd : readDigits (natDigits e.natAbs ++ t) = some (natDigits e.natAbs, t) :=
    readDigits_append (by rw [hA]; exact List.cons_ne_nil d ds)
      (natDigits_digits e.natAbs) htD
  by_cases hneg : e < 0
  · rw [if_pos hneg]
    have hsplit : splitExpSign ('-' :: (natDigits e.natAbs ++ t)) =
        (true, natDigits e.natAbs ++ t) := by
      simp [splitExpSign]
    simp only [parseExp, List.cons_append, List.nil_append]
    simp only [true_or, if_true]
    simp only [hsplit, hrd]
    simp only [if_true, digitsToNat_natDigits, Option.some.injEq, Prod.mk.injEq]
    exact ⟨by omega, trivial⟩
  · rw [if_neg hneg]
    have hdm : d ≠ '-' := isDigit_ne hd (by decide)
    have hdp : d ≠ '+' := isDigit_ne hd (by decide)
    have hsplit : splitExpSign (natDigits e.natAbs ++ t) =
        (false, natDigits e.natAbs ++ t) := by
      rw [hA]
      simp [splitExpSign, hdm, hdp]
    simp only [parseExp, List.nil_append]
    simp only [true_or, if_true]
    simp only [hsplit, hrd]
    simp only [Bool.false_eq_true, if_false, digitsToNat_natDigits,
      Option.some.injEq, Prod.mk.injEq]
    exact ⟨by omega, trivial⟩

theorem parseFrac_not {s : List Char} (hs : ∀ c, s.head? = some c → c ≠ '.') :
    parseFrac s = some ([], s) := by
  cases s with
  | nil => rfl
  | cons c r =>
    have hc := hs c rfl
    simp [parseFrac, hc]

theorem parseExp_not {s : List Char}
    (hs : ∀ c, s.head? = some c → c ≠ 'e' ∧ c ≠ 'E') :
    parseExp s = some (0, s) := by
  cases s with
  | nil => rfl
  | cons c r =>
    have hc := hs c rfl
    simp [parseExp, hc.1, hc.2]

theorem parseNumber_print {m e : Int} (h : canonNum m e) (t : List Char)
    (ht : NumBoundary t) : parseNumber (printNum m e ++ t) = some ((m, e), t) := by
  have htD : ∀ c, t.head? = some c → c.isDigit = false := fun c hc => (ht c hc).1
  obtain ⟨d, ds, hA, hd⟩ := natDigits_head m.natAbs
  have hdm : d ≠ '-' := isDigit_ne hd (by decide)
  by_cases he : e = 0
  · subst he
    have hrd : readDigits (natDigits m.natAbs ++ t) = some (natDigits m.natAbs, t) :=
      readDigits_append (by rw [hA]; exact List.cons_ne_nil d ds)
        (natDigits_digits m.natAbs) htD
    have hfr : parseFrac t = some ([], t) :=
      parseFrac_not (fun c hc => (ht c hc).2.1)
    have hex : parseExp t = some (0, t) :=
      parseExp_not (fun c hc => ⟨(ht c hc).2.2.1, (ht c hc).2.2.2⟩)
    by_cases hneg : m < 0
    · simp only [printNum, if_pos hneg, if_pos rfl, if_true, List.append_nil,
        List.cons_append, List.nil_append]
      have hsplit : splitNeg ('-' :: (natDigits m.natAbs ++ t)) =
          (true, natDigits m.natAbs ++ t) := by simp [splitNeg]
      simp only [parseNumber, hsplit, hrd, hfr, hex]
      simp only [if_true, List.append_nil, digitsToNat_natDigits, List.length_nil,
        Nat.cast_zero, sub_zero, Option.some.injEq, Prod.mk.injEq]
      have hm : -((m.natAbs : Int)) = m := by omega
      rw [hm]
      exact ⟨normNum_fixed h, trivial⟩
    · simp only [printNum, if_neg hneg, if_pos rfl, if_true, List.append_nil,
        List.cons_append, List.nil_append]
      have hsplit : splitNeg (natDigits m.natAbs ++ t) =
          (false, natDigits m.natAbs ++ t) := by
        rw [hA]
        simp [splitNeg, hdm]
      simp only [parseNumber, hsplit, hrd, hfr, hex]
      simp only [Bool.false_eq_true, if_false, List.append_nil, digitsToNat_natDigits,
        List.length_nil, Nat.cast_zero, sub_zero, Option.some.injEq, Prod.mk.injEq]
      have hm : ((m.natAbs : Int)) = m := by omega
      rw [hm]
      exact ⟨normNum_fixed h, trivial⟩
  · -- nonzero exponent
    have hXnd : ∀ c,
        (('e' :: ((if e < 0 then ['-'] else []) ++ (natDigits e.natAbs ++ t))).head? = some c)
        → c.isDigit = false := by
      intro c hc
      simp at hc
      subst hc
      decide
    have hrd : readDigits (natDigits m.natAbs ++
        ('e' :: ((if e < 0 then ['-'] else []) ++ (natDigits e.natAbs ++ t)))) =
        some (natDigits m.natAbs,
          'e' :: ((if e < 0 then ['-'] else []) ++ (natDigits e.natAbs ++ t))) :=
      readDigits_append (by rw [hA]; exact List.cons_ne_nil d ds)
        (natDigits_digits m.natAbs) hXnd
    have hfr : parseFrac ('e' :: ((if e < 0 then ['-'] else []) ++ (natDigits e.natAbs ++ t))) =
        some ([], 'e' :: ((if e < 0 then ['-'] else []) ++ (natDigits e.natAbs ++ t))) :=
      parseFrac_not (by intro c hc; simp at hc; subst hc; decide)
    have hex := parseExp_print (e := e) t htD
    by_cases hneg : m < 0
    · simp only [printNum, if_pos hneg, if_neg he, List.cons_append, List.nil_append,
        List.append_assoc]
      have hsplit : splitNeg ('-' :: (natDigits m.natAbs ++
          ('e' :: ((if e < 0 then ['-'] else []) ++ (natDigits e.natAbs ++ t))))) =
          (true, natDigits m.natAbs ++
            ('e' :: ((if e < 0 then ['-'] else []) ++ (natDigits e.natAbs ++ t)))) := by
        simp [splitNeg]
      simp only [parseNumber, hsplit, hrd, hfr, hex]
      simp only [if_true, List.append_nil, digitsToNat_natDigits, List.length_nil,
        Nat.cast_zero, sub_zero, Option.some.injEq, Prod.mk.injEq]
      have hm : -((m.natAbs : Int)) = m := by omega
      rw [hm]
      exact ⟨normNum_fixed h, trivial⟩
    · simp only [printNum, if_neg hneg, if_neg he, List.cons_append, List.nil_append,
        List.append_assoc]
      have hsplit : splitNeg (natDigits m.natAbs ++
          ('e' :: ((if e < 0 then ['-'] else []) ++ (natDigits e.natAbs ++ t)))) =
          (false, natDigits m.natAbs ++
            ('e' :: ((if e < 0 then ['-'] else []) ++ (natDigits e.natAbs ++ t)))) := by
        rw [hA]
        simp [splitNeg, hdm]
      simp only [parseNumber, hsplit, hrd, hfr, hex]
      simp only [Bool.false_eq_true, if_false, List.append_nil, digitsToNat_natDigits,
        List.length_nil, Nat.cast_zero, sub_zero, Option.some.injEq, Prod.mk.injEq]
      have hm : ((m.natAbs : Int)) = m := by omega
      rw [hm]
      exact ⟨normNum_fixed h, trivial⟩

theorem parseStrChars_quote (t : List Char) :
    parseStrChars ('"' :: t) = some ([], t) := by
  rw [parseStrChars.eq_def]
  simp

theorem parseStrChars_plain {c : Char} (hq : c ≠ '"') (hbs : c ≠ '\\')
    (t : List Char) :
    parseStrChars (c :: t) =
      match parseStrChars t with
      | some (cs, r2) => some (c :: cs, r2)
      | none => none := by
  rw [parseStrChars.eq_def]
  simp only [if_neg hq, if_neg hbs]

theorem isHexDigit_hexDigitChar {k : Nat} (h : k < 16) :
    isHexDigit (hexDigitChar k) = true := by
  interval_cases k <;> decide

theorem hexVal_hexDigitChar {k : Nat} (h : k < 16) :
    hexVal (hexDigitChar k) = k := by
  interval_cases k <;> decide

theorem parseStr_print : ∀ s t : List Char,
    parseStrChars (escString s ++ '"' :: t) = some (s, t) := by
  intro s
  induction s with
  | nil =>
    intro t
    show parseStrChars ('"' :: t) = some ([], t)
    exact parseStrChars_quote t
  | cons c s ih =>
    intro t
    have hstep : escString (c :: s) = escChar c ++ escString s := rfl
    rw [hstep, List.append_assoc]
    by_cases hq : c = '"'
    · subst hq
      rw [show escChar '"' = ['\\', '"'] from rfl]
      simp only [List.cons_append, List.nil_append]
      rw [parseStrChars.eq_def]
      simp [escCode, ih t]
    · by_cases hbs : c = '\\'
      · subst hbs
        rw [show escChar '\\' = ['\\', '\\'] from rfl]
        simp only [List.cons_append, List.nil_append]
        rw [parseStrChars.eq_def]
        simp [escCode, ih t]
      · by_cases h08 : c = '\x08'
        · subst h08
          rw [show escChar '\x08' = ['\\', 'b'] from rfl]
          simp only [List.cons_append, List.nil_append]
          rw [parseStrChars.eq_def]
          simp [escCode, ih t]
        · by_cases h0c : c = '\x0c'
          · subst h0c
            rw [show escChar '\x0c' = ['\\', 'f'] from rfl]
            simp only [List.cons_append, List.nil_append]
            rw [parseStrChars.eq_def]
            simp [escCode, ih t]
          · by_cases hn : c = '\n'
            · subst hn
              rw [show escChar '\n' = ['\\', 'n'] from rfl]
              simp only [List.cons_append, List.nil_append]
              rw [parseStrChars.eq_def]
              simp [escCode, ih t]
            · by_cases hr : c = '\r'
              · subst hr
                rw [show escChar '\r' = ['\\', 'r'] from rfl]
                simp only [List.cons_append, List.nil_append]
                rw [parseStrChars.eq_def]
                simp [escCode, ih t]
              · by_cases htb : c = '\t'
                · subst htb
                  rw [show escChar '\t' = ['\\', 't'] from rfl]
                  simp only [List.cons_append, List.nil_append]
                  rw [parseStrChars.eq_def]
                  simp [escCode, ih t]
                · by_cases hctl : c.toNat < 32
                  · have hdiv : c.toNat / 16 < 16 := by omega
                    have hmod : c.toNat % 16 < 16 := by omega
                    simp only [escChar, if_neg hq, if_neg hbs, if_neg h08, if_neg h0c,
                      if_neg hn, if_neg hr, if_neg htb, if_pos hctl, List.cons_append,
                      List.nil_append]
                    rw [parseStrChars.eq_def]
                    simp only [if_neg (by decide : ¬('\\' : Char) = '"'), if_pos rfl]
                    rw [show (isHexDigit '0' && isHexDigit '0' &&
                        isHexDigit (hexDigitChar (c.toNat / 16)) &&
                        isHexDigit (hexDigitChar (c.toNat % 16))) = true by
                      rw [isHexDigit_hexDigitChar hdiv, isHexDigit_hexDigitChar hmod]
                      decide]
                    simp only [if_true, ih t]
                    rw [hexVal_hexDigitChar hdiv, hexVal_hexDigitChar hmod]
                    rw [show ((hexVal '0' * 16 + hexVal '0') * 16 + c.toNat / 16) * 16 +
                        c.toNat % 16 = c.toNat by
                      rw [show hexVal '0' = 0 by decide]
                      omega]
                    rw [Char.ofNat_toNat]
                  · simp only [escChar, if_neg hq, if_neg hbs, if_neg h08, if_neg h0c,
                      if_neg hn, if_neg hr, if_neg htb, if_neg hctl, List.cons_append,
                      List.nil_append]
                    rw [parseStrChars_plain hq hbs, ih t]

/-! ## Helpers for the value round trip -/

theorem sizeV_pos (v : Json) : 1 ≤ sizeV v := by
  cases v <;> simp [sizeV]

theorem sizeL_pos (l : JsonList) : 1 ≤ sizeL l := by
  cases l with
  | nil => simp [sizeL]
  | cons h t => simp [sizeL]; omega

theorem sizeF_pos (fs : JsonFields) : 1 ≤ sizeF fs := by
  cases fs with
  | nil => simp [sizeF]
  | cons k v t => simp [sizeF]; omega

theorem numBoundary_of_boundary {t : List Char} (h : Boundary t) : NumBoundary t := by
  intro c hc
  rcases h with rfl | ⟨d, r, rfl, hd⟩
  · simp at hc
  · simp at hc
    subst hc
    rcases hd with rfl | rfl | rfl <;> exact ⟨by decide, by decide, by decide, by decide⟩

theorem boundary_comma (r : List Char) : Boundary (',' :: r) :=
  Or.inr ⟨',', r, rfl, Or.inl rfl⟩

theorem boundary_rbracket (r : List Char) : Boundary (']' :: r) :=
  Or.inr ⟨']', r, rfl, Or.inr (Or.inl rfl)⟩

theorem boundary_rbrace (r : List Char) : Boundary ('\x7d' :: r) :=
  Or.inr ⟨'\x7d', r, rfl, Or.inr (Or.inr rfl)⟩

theorem printNum_head (m e : Int) :
    ∃ c cs, printNum m e = c :: cs ∧ isJsonWs c = false ∧ c ≠ ']' ∧ c ≠ 'n' ∧
      c ≠ 't' ∧ c ≠ 'f' ∧ c ≠ '"' ∧ c ≠ '[' ∧ c ≠ '\x7b' := by
  obtain ⟨d, ds, hA, hd⟩ := natDigits_head m.natAbs
  by_cases hneg : m < 0
  · have heq : printNum m e = '-' :: (natDigits m.natAbs ++ (if e = 0 then []
        else 'e' :: ((if e < 0 then ['-'] else []) ++ natDigits e.natAbs))) := by
      simp [printNum, if_pos hneg]
    refine ⟨'-', _, heq, ?_, ?_, ?_, ?_, ?_, ?_, ?_, ?_⟩ <;> decide
  · have heq : printNum m e = d :: (ds ++ (if e = 0 then []
        else 'e' :: ((if e < 0 then ['-'] else []) ++ natDigits e.natAbs))) := by
      simp [printNum, if_neg hneg, hA]
    refine ⟨d, _, heq, isJsonWs_eq_false_of_isDigit hd, ?_, ?_, ?_, ?_, ?_, ?_, ?_⟩ <;>
      exact isDigit_ne hd (by decide)

theorem printValue_head (v : Json) :
    ∃ c cs, printValue v = c :: cs ∧ isJsonWs c = false ∧ c ≠ ']' := by
  cases v with
  | null => exact ⟨'n', _, rfl, by decide, by decide⟩
  | bool b => cases b with
    | true => exact ⟨'t', _, rfl, by decide, by decide⟩
    | false => exact ⟨'f', _, rfl, by decide, by decide⟩
  | num m e =>
    obtain ⟨c, cs, heq, h1, h2, _⟩ := printNum_head m e
    exact ⟨c, cs, heq, h1, h2⟩
  | str s => exact ⟨'"', _, rfl, by decide, by decide⟩
  | arr l => exact ⟨'[', _, rfl, by decide, by decide⟩
  | obj fs => exact ⟨'\x7b', _, rfl, by decide, by decide⟩

theorem print_parse_rt : ∀ fuel : Nat,
    (∀ v rest, canonV v → sizeV v ≤ fuel → Boundary rest →
      parseValue fuel (printValue v ++ rest) = some (v, rest)) ∧
    (∀ l rest, canonL l → sizeL l ≤ fuel → l ≠ .nil →
      parseElems fuel (printList l ++ ']' :: rest) = some (l, rest)) ∧
    (∀ fs rest, canonF fs → sizeF fs ≤ fuel → fs ≠ .nil →
      parseFields fuel (printFields fs ++ '\x7d' :: rest) = some (fs, rest)) := by
  intro fuel
  induction fuel with
  | zero =>
    refine ⟨?_, ?_, ?_⟩
    · intro v rest _ hsz _
      have := sizeV_pos v
      omega
    · intro l rest _ hsz _
      have := sizeL_pos l
      omega
    · intro fs rest _ hsz _
      have := sizeF_pos fs
      omega
  | succ fuel ih =>
    obtain ⟨ihV, ihL, ihF⟩ := ih
    refine ⟨?_, ?_, ?_⟩
    · intro v rest hcan hsz hb
      cases v with
      | null =>
        show parseValue (fuel + 1) ('n' :: 'u' :: 'l' :: 'l' :: rest) = some (.null, rest)
        rw [parseValue.eq_def]
        simp [skipWs, List.dropWhile_cons, isJsonWs]
      | bool b =>
        cases b with
        | true =>
          show parseValue (fuel + 1) ('t' :: 'r' :: 'u' :: 'e' :: rest) =
            some (.bool true, rest)
          rw [parseValue.eq_def]
          simp [skipWs, List.dropWhile_cons, isJsonWs]
        | false =>
          show parseValue (fuel + 1) ('f' :: 'a' :: 'l' :: 's' :: 'e' :: rest) =
            some (.bool false, rest)
          rw [parseValue.eq_def]
          simp [skipWs, List.dropWhile_cons, isJsonWs]
      | num m e =>
        obtain ⟨c, cs, heq, hws, _, hn, ht, hf, hq, hlb, hob⟩ := printNum_head m e
        show parseValue (fuel + 1) (printNum m e ++ rest) = some (.num m e, rest)
        rw [parseValue.eq_def, heq]
        simp only [List.cons_append]
        rw [skipWs_cons hws]
        dsimp only
        rw [if_neg hn, if_neg ht, if_neg hf, if_neg hq, if_neg hlb, if_neg hob]
        have hback : c :: (cs ++ rest) = printNum m e ++ rest := by
          rw [heq]
          simp
        rw [hback, parseNumber_print hcan rest (numBoundary_of_boundary hb)]
      | str s =>
        show parseValue (fuel + 1) (('"' :: (escString s ++ ['"'])) ++ rest) =
          some (.str s, rest)
        have hshape : ('"' :: (escString s ++ ['"'])) ++ rest =
            '"' :: (escString s ++ ('"' :: rest)) := by
          simp
        rw [hshape, parseValue.eq_def]
        simp [skipWs, List.dropWhile_cons, isJsonWs, parseStr_print]
      | arr l =>
        cases l with
        | nil =>
          show parseValue (fuel + 1) ('[' :: ']' :: rest) = some (.arr .nil, rest)
          rw [parseValue.eq_def]
          simp [skipWs, List.dropWhile_cons, isJsonWs]
        | cons h tl =>
          have hszL : sizeL (JsonList.cons h tl) ≤ fuel := by
            simp only [sizeV, sizeL] at hsz ⊢
            omega
          have hcanL : canonL (JsonList.cons h tl) := hcan
          have hone := ihL (JsonList.cons h tl) rest hcanL hszL
            (fun hcontra => JsonList.noConfusion hcontra)
          obtain ⟨X, hXeq⟩ : ∃ X, printList (JsonList.cons h tl) = printValue h ++ X := by
            cases tl with
            | nil => exact ⟨[], by simp [printList]⟩
            | cons h2 t2 => exact ⟨',' :: printList (JsonList.cons h2 t2), rfl⟩
          obtain ⟨c, cs, hhead, hws, hrb⟩ := printValue_head h
          show parseValue (fuel + 1)
            (('[' :: (printList (JsonList.cons h tl) ++ [']'])) ++ rest) =
            some (.arr (JsonList.cons h tl), rest)
          have hshape : ('[' :: (printList (JsonList.cons h tl) ++ [']'])) ++ rest =
              '[' :: (printList (JsonList.cons h tl) ++ (']' :: rest)) := by
            simp
          rw [hshape, parseValue.eq_def, hXeq, hhead]
          simp only [List.cons_append, List.append_assoc]
          rw [skipWs_cons (by decide)]
          dsimp only
          rw [if_neg (by decide : ¬('[' : Char) = 'n'),
            if_neg (by decide : ¬('[' : Char) = 't'),
            if_neg (by decide : ¬('[' : Char) = 'f'),
            if_neg (by decide : ¬('[' : Char) = '"'), if_pos rfl]
          rw [skipWs_cons hws]
          split
          · next r heq =>
            exact absurd (List.head_eq_of_cons_eq heq.symm).symm hrb
          · next r1 hne =>
            have hback : c :: (cs ++ (X ++ ']' :: rest)) =
                printList (JsonList.cons h tl) ++ ']' :: rest := by
              rw [hXeq, hhead]
              simp
            rw [hback, hone]
      | obj fs =>
        cases fs with
        | nil =>
          show parseValue (fuel + 1) ('\x7b' :: '\x7d' :: rest) = some (.obj .nil, rest)
          rw [parseValue.eq_def]
          simp [skipWs, List.dropWhile_cons, isJsonWs]
        | cons k v tl =>
          have hszF : sizeF (JsonFields.cons k v tl) ≤ fuel := by
            simp only [sizeV, sizeF] at hsz ⊢
            omega
          have hcanF : canonF (JsonFields.cons k v tl) := hcan
          have hone := ihF (JsonFields.cons k v tl) rest hcanF hszF
            (fun hcontra => JsonFields.noConfusion hcontra)
          obtain ⟨X, hXeq⟩ : ∃ X, printFields (JsonFields.cons k v tl) = '"' :: X := by
            cases tl with
            | nil => exact ⟨_, rfl⟩
            | cons k2 v2 t2 => exact ⟨_, rfl⟩
          show parseValue (fuel + 1)
            (('\x7b' :: (printFields (JsonFields.cons k v tl) ++ ['\x7d'])) ++ rest) =
            some (.obj (JsonFields.cons k v tl), rest)
          have hshape : ('\x7b' :: (printFields (JsonFields.cons k v tl) ++ ['\x7d'])) ++ rest =
              '\x7b' :: (printFields (JsonFields.cons k v tl) ++ ('\x7d' :: rest)) := by
            simp
          rw [hshape, parseValue.eq_def, hXeq]
          simp only [List.cons_append]
          rw [skipWs_cons (by decide)]
          dsimp only
          rw [if_neg (by decide : ¬('\x7b' : Char) = 'n'),
            if_neg (by decide : ¬('\x7b' : Char) = 't'),
            if_neg (by decide : ¬('\x7b' : Char) = 'f'),
            if_neg (by decide : ¬('\x7b' : Char) = '"'),
            if_neg (by decide : ¬('\x7b' : Char) = '['), if_pos rfl]
          rw [skipWs_cons (by decide)]
          split
          · next r heq =>
            exact absurd (List.head_eq_of_cons_eq heq.symm).symm (by decide)
          · next r1 hne2 =>
            have hback : '"' :: (X ++ '\x7d' :: rest) =
                printFields (JsonFields.cons k v tl) ++ '\x7d' :: rest := by
              rw [hXeq]
              simp
            rw [hback, hone]
    · intro l rest hcan hsz hne
      cases l with
      | nil => exact absurd rfl hne
      | cons h tl =>
        have hszV : sizeV h ≤ fuel := by
          simp only [sizeL] at hsz
          omega
        cases tl with
        | nil =>
          have hPL : printList (JsonList.cons h JsonList.nil) = printValue h := by
            simp [printList]
          show parseElems (fuel + 1)
            (printList (JsonList.cons h JsonList.nil) ++ ']' :: rest) =
            some (JsonList.cons h JsonList.nil, rest)
          rw [hPL, parseElems.eq_def]
          dsimp only
          rw [ihV h (']' :: rest) hcan.1 hszV (boundary_rbracket rest)]
          dsimp only
          rw [skipWs_cons (by decide)]
          rfl
        | cons h2 t2 =>
          have hszL : sizeL (JsonList.cons h2 t2) ≤ fuel := by
            simp only [sizeL] at hsz ⊢
            omega
          have hone := ihL (JsonList.cons h2 t2) rest hcan.2 hszL
            (fun hcontra => JsonList.noConfusion hcontra)
          have hPL : printList (JsonList.cons h (JsonList.cons h2 t2)) =
              printValue h ++ ',' :: printList (JsonList.cons h2 t2) := by
            simp [printList]
          show parseElems (fuel + 1)
            (printList (JsonList.cons h (JsonList.cons h2 t2)) ++ ']' :: rest) =
            some (JsonList.cons h (JsonList.cons h2 t2), rest)
          rw [hPL, parseElems.eq_def]
          dsimp only
          have hshape : (printValue h ++ ',' :: printList (JsonList.cons h2 t2)) ++ ']' :: rest =
              printValue h ++ (',' :: (printList (JsonList.cons h2 t2) ++ ']' :: rest)) := by
            simp
          rw [hshape, ihV h _ hcan.1 hszV (boundary_comma _)]
          dsimp only
          rw [skipWs_cons (by decide)]
          split
          · next r2 heq =>
            rw [List.tail_eq_of_cons_eq heq] at hone
            rw [hone]
          · next r2 heq =>
            exact absurd (List.head_eq_of_cons_eq heq) (by decide)
          · next hne1 hne2 =>
            exact absurd rfl (hne1 (printList (JsonList.cons h2 t2) ++ ']' :: rest))
    · intro fs rest hcan hsz hne
      cases fs with
      | nil => exact absurd rfl hne
      | cons k v tl =>
        have hszV : sizeV v ≤ fuel := by
          simp only [sizeF] at hsz
          omega
        cases tl with
        | nil =>
          have hPF : printFields (JsonFields.cons k v JsonFields.nil) =
              '"' :: (escString k ++ ['"']) ++ ':' :: printValue v := by
            simp [printFields]
          show parseFields (fuel + 1)
            (printFields (JsonFields.cons k v JsonFields.nil) ++ '\x7d' :: rest) =
            some (JsonFields.cons k v JsonFields.nil, rest)
          rw [hPF, parseFields.eq_def]
          dsimp only
          have hshape : ('"' :: (escString k ++ ['"']) ++ ':' :: printValue v) ++ '\x7d' :: rest =
              '"' :: (escString k ++ ('"' :: (':' :: (printValue v ++ '\x7d' :: rest)))) := by
            simp
          rw [hshape]
          rw [skipWs_cons (by decide)]
          simp only []
          rw [parseStr_print]
          simp only []
          rw [skipWs_cons (by decide)]
          simp only []
          rw [ihV v ('\x7d' :: rest) hcan.1 hszV (boundary_rbrace rest)]
          simp only []
          rw [skipWs_cons (by decide)]
          rfl
        | cons k2 v2 t2 =>
          have hszF : sizeF (JsonFields.cons k2 v2 t2) ≤ fuel := by
            simp only [sizeF] at hsz ⊢
            omega
          have hone := ihF (JsonFields.cons k2 v2 t2) rest hcan.2 hszF
            (fun hcontra => JsonFields.noConfusion hcontra)
          have hPF : printFields (JsonFields.cons k v (JsonFields.cons k2 v2 t2)) =
              '"' :: (escString k ++ ['"']) ++ ':' :: printValue v ++
                ',' :: printFields (JsonFields.cons k2 v2 t2) := by
            simp [printFields]
          show parseFields (fuel + 1)
            (printFields (JsonFields.cons k v (JsonFields.cons k2 v2 t2)) ++ '\x7d' :: rest) =
            some (JsonFields.cons k v (JsonFields.cons k2 v2 t2), rest)
          rw [hPF, parseFields.eq_def]
          dsimp only
          have hshape : ('"' :: (escString k ++ ['"']) ++ ':' :: printValue v ++
              ',' :: printFields (JsonFields.cons k2 v2 t2)) ++ '\x7d' :: rest =
              '"' :: (escString k ++ ('"' :: (':' :: (printValue v ++
                (',' :: (printFields (JsonFields.cons k2 v2 t2) ++ '\x7d' :: rest)))))) := by
            simp
          rw [hshape]
          rw [skipWs_cons (by decide)]
          simp only []
          rw [parseStr_print]
          simp only []
          rw [skipWs_cons (by decide)]
          simp only []
          rw [ihV v _ hcan.1 hszV (boundary_comma _)]
          simp only []
          rw [skipWs_cons (by decide)]
          simp only []
          rw [hone]

theorem printNum_length_pos (m e : Int) : 1 ≤ (printNum m e).length := by
  obtain ⟨c, cs, heq, _⟩ := printNum_head m e
  rw [heq]
  simp

mutual

theorem sizeV_le_print (v : Json) : sizeV v ≤ 2 * (printValue v).length := by
  cases v with
  | null => simp [sizeV, printValue]
  | bool b => cases b <;> simp [sizeV, printValue]
  | num m e =>
    have := printNum_length_pos m e
    simp only [sizeV, printValue]
    omega
  | str s =>
    simp [sizeV, printValue]
    omega
  | arr l =>
    have hl := sizeL_le_print l
    simp only [sizeV, printValue, List.length_cons, List.length_append]
    simp at hl ⊢
    omega
  | obj fs =>
    have hf := sizeF_le_print fs
    simp only [sizeV, printValue, List.length_cons, List.length_append]
    simp at hf ⊢
    omega

theorem sizeL_le_print (l : JsonList) : sizeL l ≤ 2 * (printList l).length + 3 := by
  cases l with
  | nil => simp [sizeL, printList]
  | cons h tl =>
    have hv := sizeV_le_print h
    cases tl with
    | nil =>
      simp only [sizeL, printList]
      omega
    | cons h2 t2 =>
      have hl := sizeL_le_print (JsonList.cons h2 t2)
      simp only [sizeL, printList, List.length_append, List.length_cons]
      simp only [sizeL] at hl
      omega

theorem sizeF_le_print (fs : JsonFields) : sizeF fs ≤ 2 * (printFields fs).length + 3 := by
  cases fs with
  | nil => simp [sizeF, printFields]
  | cons k v tl =>
    have hv := sizeV_le_print v
    cases tl with
    | nil =>
      simp only [sizeF, printFields, List.length_append, List.length_cons]
      omega
    | cons k2 v2 t2 =>
      have hf := sizeF_le_print (JsonFields.cons k2 v2 t2)
      simp only [sizeF, printFields, List.length_append, List.length_cons]
      simp only [sizeF] at hf
      omega

end

theorem parseNumber_canon {s : List Char} {m e : Int} {r : List Char}
    (h : parseNumber s = some ((m, e), r)) : canonNum m e := by
  unfold parseNumber at h
  dsimp only at h
  split at h
  · exact absurd h (by simp)
  · split at h
    · exact absurd h (by simp)
    · split at h
      · exact absurd h (by simp)
      · rename_i x2 ds s2 hq1 x1 fds s3 hq2 x0 ex s4 hq3
        simp only [Option.some.injEq, Prod.mk.injEq] at h
        obtain ⟨hme, hs⟩ := h
        have h2 := normNum_canon (if (splitNeg s).1 = true
            then -(digitsToNat (ds ++ fds) : Int) else (digitsToNat (ds ++ fds) : Int))
          (ex - (fds.length : Int))
        rw [hme] at h2
        exact h2

theorem parse_canon : ∀ fuel : Nat,
    (∀ s v r, parseValue fuel s = some (v, r) → canonV v) ∧
    (∀ s l r, parseElems fuel s = some (l, r) → canonL l) ∧
    (∀ s fs r, parseFields fuel s = some (fs, r) → canonF fs) := by
  intro fuel
  induction fuel with
  | zero =>
    refine ⟨?_, ?_, ?_⟩
    · intro s v r h
      exact absurd h (by simp [parseValue])
    · intro s l r h
      exact absurd h (by simp [parseElems])
    · intro s fs r h
      exact absurd h (by simp [parseFields])
  | succ fuel ih =>
    obtain ⟨ihV, ihL, ihF⟩ := ih
    refine ⟨?_, ?_, ?_⟩
    · intro s v r h
      rw [parseValue.eq_def] at h
      dsimp only at h
      split at h
      · exact absurd h (by simp)
      · split at h
        · split at h
          · simp only [Option.some.injEq, Prod.mk.injEq] at h
            obtain ⟨hv, -⟩ := h
            subst hv
            simp only [canonV]
          · exact absurd h (by simp)
        · split at h
          · split at h
            · simp only [Option.some.injEq, Prod.mk.injEq] at h
              obtain ⟨hv, -⟩ := h
              subst hv
              simp only [canonV]
            · exact absurd h (by simp)
          · split at h
            · split at h
              · simp only [Option.some.injEq, Prod.mk.injEq] at h
                obtain ⟨hv, -⟩ := h
                subst hv
                simp only [canonV]
              · exact absurd h (by simp)
            · split at h
              · split at h
                · rename_i cs r2 heqS
                  simp only [Option.some.injEq, Prod.mk.injEq] at h
                  obtain ⟨hv, -⟩ := h
                  subst hv
                  simp only [canonV]
                · exact absurd h (by simp)
              · split at h
                · split at h
                  · simp only [Option.some.injEq, Prod.mk.injEq] at h
                    obtain ⟨hv, -⟩ := h
                    subst hv
                    simp only [canonV, canonL]
                  · split at h
                    · rename_i l2 r2 heqE
                      simp only [Option.some.injEq, Prod.mk.injEq] at h
                      obtain ⟨hv, -⟩ := h
                      subst hv
                      simp only [canonV]
                      exact ihL _ _ _ heqE
                    · exact absurd h (by simp)
                · split at h
                  · split at h
                    · simp only [Option.some.injEq, Prod.mk.injEq] at h
                      obtain ⟨hv, -⟩ := h
                      subst hv
                      simp only [canonV, canonF]
                    · split at h
                      · rename_i fs2 r2 heqF
                        simp only [Option.some.injEq, Prod.mk.injEq] at h
                        obtain ⟨hv, -⟩ := h
                        subst hv
                        simp only [canonV]
                        exact ihF _ _ _ heqF
                      · exact absurd h (by simp)
                  · split at h
                    · rename_i p r2 m2 e2 heqN
                      simp only [Option.some.injEq, Prod.mk.injEq] at h
                      obtain ⟨hv, -⟩ := h
                      subst hv
                      simp only [canonV]
                      exact parseNumber_canon heqN
                    · exact absurd h (by simp)
    · intro s l r h
      rw [parseElems.eq_def] at h
      dsimp only at h
      split at h
      · exact absurd h (by simp)
      · rename_i v1 r1 heqV
        split at h
        · split at h
          · rename_i l2 r3 heqE
            simp only [Option.some.injEq, Prod.mk.injEq] at h
            obtain ⟨hv, -⟩ := h
            subst hv
            exact ⟨ihV _ _ _ heqV, ihL _ _ _ heqE⟩
          · exact absurd h (by simp)
        · simp only [Option.some.injEq, Prod.mk.injEq] at h
          obtain ⟨hv, -⟩ := h
          subst hv
          exact ⟨ihV _ _ _ heqV, trivial⟩
        · exact absurd h (by simp)
    · intro s fs r h
      rw [parseFields.eq_def] at h
      dsimp only at h
      split at h
      · split at h
        · exact absurd h (by simp)
        · rename_i k r1 heqS
          split at h
          · split at h
            · exact absurd h (by simp)
            · rename_i v1 r3 heqV
              split at h
              · split at h
                · rename_i fs2 r5 heqF
                  simp only [Option.some.injEq, Prod.mk.injEq] at h
                  obtain ⟨hv, -⟩ := h
                  subst hv
                  exact ⟨ihV _ _ _ heqV, ihF _ _ _ heqF⟩
                · exact absurd h (by simp)
              · simp only [Option.some.injEq, Prod.mk.injEq] at h
                obtain ⟨hv, -⟩ := h
                subst hv
                exact ⟨ihV _ _ _ heqV, trivial⟩
              · exact absurd h (by simp)
          · exact absurd h (by simp)
      · exact absurd h (by simp)

theorem jsonParse_canon {t : String} {v : Json} (h : jsonParse t = some v) :
    canonV v := by
  unfold jsonParse jsonParseL at h
  cases hp : parseValue (2 * t.data.length + 4) t.data with
  | none => rw [hp] at h; exact absurd h (by simp)
  | some pr =>
    obtain ⟨v', r⟩ := pr
    rw [hp] at h
    dsimp only at h
    by_cases hr : skipWs r = []
    · rw [if_pos hr] at h
      injection h with h
      subst h
      exact (parse_canon _).1 _ _ _ hp
    · rw [if_neg hr] at h
      exact absurd h (by simp)

theorem jsonParse_stringify {v : Json} (hc : canonV v) :
    jsonParse (jsonStringify v) = some v := by
  unfold jsonParse jsonParseL jsonStringify
  have hdata : (String.mk (printValue v)).data = printValue v := rfl
  rw [hdata]
  have hsz : sizeV v ≤ 2 * (printValue v).length + 4 := by
    have := sizeV_le_print v
    omega
  have hrt := (print_parse_rt (2 * (printValue v).length + 4)).1 v [] hc hsz (Or.inl rfl)
  rw [List.append_nil] at hrt
  rw [hrt]
  simp [skipWs]

/-! ## Classifier characterization -/

theorem classify_eq_delete {name : String} :
    classify name = .delete ↔ delCond name := by
  unfold classify
  split_ifs with h1 h2 h3 <;> simp [h1]

theorem classify_eq_compressJS {name : String} :
    classify name = .compressJS ↔ (¬delCond name ∧ extname name = EXT_JS) := by
  unfold classify
  split_ifs with h1 h2 h3
  · simp [h1]
  · simp [h1, h2]
  · simp [h1, h2]
  · simp [h1, h2]

theorem classify_eq_compressJSON {name : String} :
    classify name = .compressJSON ↔
      (¬delCond name ∧ ¬extname name = EXT_JS ∧ extname name = EXT_JSON) := by
  unfold classify
  split_ifs with h1 h2 h3
  · simp [h1]
  · simp [h1, h2]
  · simp [h1, h2, h3]
    decide
  · simp [h1, h2, h3]

theorem classify_eq_skip {name : String} :
    classify name = .skip ↔
      (¬delCond name ∧ ¬extname name = EXT_JS ∧ ¬extname name = EXT_JSON) := by
  unfold classify
  split_ifs with h1 h2 h3
  · simp [h1]
  · simp [h1, h2]
  · simp [h1, h2, h3]
  · simp [h1, h2, h3]

/-! ## Per-file outcome characterizations -/

theorem processFileE_not_delete {minify : String → Option String} {f : FileState}
    {o : FsOracle} (h : ¬delCond f.name) :
    processFileE minify f o = compressFileE minify f o := by
  unfold processFileE
  rw [if_neg h]

theorem compressJavaScriptFileE_cases (minify : String → Option String)
    (f : FileState) (o : FsOracle) :
    compressJavaScriptFileE minify f o = .error () ∨
    compressJavaScriptFileE minify f o = .ok (.kept f.content, zeroStats) ∨
    ∃ c : String, minify f.content = some c ∧ ¬c = "" ∧ c.length < f.content.length ∧
      compressJavaScriptFileE minify f o =
        .ok (.kept c, jsDelta (f.content.length - c.length)) := by
  unfold compressJavaScriptFileE
  by_cases hr : o.readFails = true
  · rw [if_pos hr]
    exact Or.inl rfl
  · rw [if_neg hr]
    by_cases hm : hasImportExportMarker f.content = true
    · rw [if_pos hm]
      exact Or.inr (Or.inl rfl)
    · rw [if_neg hm]
      cases hmin : minify f.content with
      | none => exact Or.inr (Or.inl rfl)
      | some code =>
        dsimp only
        by_cases hcc : ¬code = "" ∧ code.length < f.content.length
        · rw [if_pos hcc]
          by_cases hw : o.writeFails = true
          · rw [if_pos hw]
            exact Or.inr (Or.inl rfl)
          · rw [if_neg hw]
            exact Or.inr (Or.inr ⟨code, rfl, hcc.1, hcc.2, rfl⟩)
        · rw [if_neg hcc]
          exact Or.inr (Or.inl rfl)

theorem compressJsonFileE_cases (f : FileState) (o : FsOracle) :
    compressJsonFileE f o = .error () ∨
    compressJsonFileE f o = .ok (.kept f.content, zeroStats) ∨
    ∃ v : Json, jsonParse f.content = some v ∧
      (jsonStringify v).length < f.content.length ∧
      compressJsonFileE f o = .ok (.kept (jsonStringify v),
        jsonDelta (f.content.length - (jsonStringify v).length)) := by
  unfold compressJsonFileE
  by_cases hr : o.readFails = true
  · rw [if_pos hr]
    exact Or.inl rfl
  · rw [if_neg hr]
    cases hp : jsonParse f.content with
    | none => exact Or.inr (Or.inl rfl)
    | some v =>
      dsimp only
      by_cases hlt : (jsonStringify v).length < f.content.length
      · rw [if_pos hlt]
        by_cases hw : o.writeFails = true
        · rw [if_pos hw]
          exact Or.inr (Or.inl rfl)
        · rw [if_neg hw]
          exact Or.inr (Or.inr ⟨v, rfl, hlt, rfl⟩)
      · rw [if_neg hlt]
        exact Or.inr (Or.inl rfl)

theorem compressFileE_js {minify : String → Option String} {f : FileState}
    {o : FsOracle} (hjs : extname f.name = EXT_JS) :
    compressFileE minify f o =
      match compressJavaScriptFileE minify f o with
      | .ok r => .ok r
      | .error _ => .ok (.kept f.content, zeroStats) := by
  unfold compressFileE
  rw [if_pos hjs]

theorem compressFileE_json {minify : String → Option String} {f : FileState}
    {o : FsOracle} (hnjs : ¬extname f.name = EXT_JS)
    (hjson : extname f.name = EXT_JSON) :
    compressFileE minify f o =
      match compressJsonFileE f o with
      | .ok r => .ok r
      | .error _ => .ok (.kept f.content, zeroStats) := by
  unfold compressFileE
  rw [if_neg hnjs, if_pos hjson]

theorem compressFileE_skip {minify : String → Option String} {f : FileState}
    {o : FsOracle} (hnjs : ¬extname f.name = EXT_JS)
    (hnjson : ¬extname f.name = EXT_JSON) :
    compressFileE minify f o = .ok (.kept f.content, zeroStats) := by
  unfold compressFileE
  rw [if_neg hnjs, if_neg hnjson]

/-- Transactional behaviour of both compressors as seen from `processFile`:
a compress-classified file is either left byte-for-byte unchanged with no
statistics, or overwritten with strictly shorter content and exactly the
matching one-kind delta. -/
theorem processFile_compress_spec (minify : String → Option String)
    (f : FileState) (o : FsOracle)
    (h : classify f.name = .compressJS ∨ classify f.name = .compressJSON) :
    processFileE minify f o = .ok (.kept f.content, zeroStats) ∨
    ∃ c : String, c.length < f.content.length ∧
      processFileE minify f o = .ok (.kept c,
        if classify f.name = .compressJS then jsDelta (f.content.length - c.length)
        else jsonDelta (f.content.length - c.length)) := by
  rcases h with h | h
  · obtain ⟨hd, hjs⟩ := classify_eq_compressJS.mp h
    rw [processFileE_not_delete hd, compressFileE_js hjs]
    rcases compressJavaScriptFileE_cases minify f o with hc | hc | ⟨c, -, -, hlt, hc⟩
    · rw [hc]
      exact Or.inl rfl
    · rw [hc]
      exact Or.inl rfl
    · rw [hc]
      exact Or.inr ⟨c, hlt, by rw [if_pos h]⟩
  · obtain ⟨hd, hnjs, hjson⟩ := classify_eq_compressJSON.mp h
    have hnejs : ¬classify f.name = .compressJS := by
      rw [h]
      decide
    rw [processFileE_not_delete hd, compressFileE_json hnjs hjson]
    rcases compressJsonFileE_cases f o with hc | hc | ⟨v, -, hlt, hc⟩
    · rw [hc]
      exact Or.inl rfl
    · rw [hc]
      exact Or.inl rfl
    · rw [hc]
      exact Or.inr ⟨jsonStringify v, hlt, by rw [if_neg hnejs]⟩

/-- Each successfully processed file contributes one of four delta shapes. -/
theorem processFile_delta {minify : String → Option String} {f : FileState}
    {o : FsOracle} {r : DiskOutcome × Stats}
    (h : processFileE minify f o = .ok r) :
    (delCond f.name ∧ r.2 = deleteDelta f.size) ∨
    (¬delCond f.name ∧ (r.2 = zeroStats ∨
      (extname f.name = EXT_JS ∧ ∃ d, r.2 = jsDelta d) ∨
      (¬extname f.name = EXT_JS ∧ extname f.name = EXT_JSON ∧
        ∃ d, r.2 = jsonDelta d))) := by
  by_cases hd : delCond f.name
  · left
    refine ⟨hd, ?_⟩
    unfold processFileE at h
    rw [if_pos hd] at h
    by_cases hs : o.statFails = true
    · rw [if_pos hs] at h
      exact absurd h (by simp)
    · rw [if_neg hs] at h
      injection h with h
      rw [← h]
  · right
    refine ⟨hd, ?_⟩
    rw [processFileE_not_delete hd] at h
    by_cases hjs : extname f.name = EXT_JS
    · rw [compressFileE_js hjs] at h
      rcases compressJavaScriptFileE_cases minify f o with hc | hc | ⟨c, -, -, -, hc⟩
      · rw [hc] at h
        injection h with h
        exact Or.inl (by rw [← h])
      · rw [hc] at h
        injection h with h
        exact Or.inl (by rw [← h])
      · rw [hc] at h
        injection h with h
        exact Or.inr (Or.inl ⟨hjs, _, by rw [← h]⟩)
    · by_cases hjson : extname f.name = EXT_JSON
      · rw [compressFileE_json hjs hjson] at h
        rcases compressJsonFileE_cases f o with hc | hc | ⟨v, -, -, hc⟩
        · rw [hc] at h
          injection h with h
          exact Or.inl (by rw [← h])
        · rw [hc] at h
          injection h with h
          exact Or.inl (by rw [← h])
        · rw [hc] at h
          injection h with h
          exact Or.inr (Or.inr ⟨hjs, hjson, _, by rw [← h]⟩)
      · rw [compressFileE_skip hjs hjson] at h
        injection h with h
        exact Or.inl (by rw [← h])

theorem fileDelta_eq {minify : String → Option String} {f : FileState}
    {o : FsOracle} {r : DiskOutcome × Stats}
    (h : processFileE minify f o = .ok r) : fileDelta minify f o = r.2 := by
  unfold fileDelta
  rw [h]

/-- Per-file accounting: at most one counter moves, `spaceFreed` moves only
for delete-classified names and `spaceSaved` only for compress-classified
names. -/
theorem processFile_counts {minify : String → Option String} {f : FileState}
    {o : FsOracle} {r : DiskOutcome × Stats}
    (h : processFileE minify f o = .ok r) :
    r.2.deletedFiles + r.2.jsFilesCompressed + r.2.jsonFilesCompressed ≤ 1 ∧
    (¬classify f.name = .delete → r.2.spaceFreed = 0 ∧ r.2.deletedFiles = 0) ∧
    (¬(classify f.name = .compressJS ∨ classify f.name = .compressJSON) →
      r.2.spaceSaved = 0 ∧ r.2.jsFilesCompressed = 0 ∧ r.2.jsonFilesCompressed = 0) := by
  rcases processFile_delta h with ⟨hd, hr⟩ | ⟨hd, hr | ⟨hjs, d, hr⟩ | ⟨hnjs, hjson, d, hr⟩⟩
  · have hcl : classify f.name = .delete := classify_eq_delete.mpr hd
    refine ⟨?_, ?_, ?_⟩
    · rw [hr]
      simp [deleteDelta, zeroStats]
    · intro hc
      exact absurd hcl hc
    · intro _
      rw [hr]
      simp [deleteDelta, zeroStats]
  · refine ⟨?_, ?_, ?_⟩
    · rw [hr]
      simp [zeroStats]
    · intro _
      rw [hr]
      simp [zeroStats]
    · intro _
      rw [hr]
      simp [zeroStats]
  · have hcl : classify f.name = .compressJS := classify_eq_compressJS.mpr ⟨hd, hjs⟩
    refine ⟨?_, ?_, ?_⟩
    · rw [hr]
      simp [jsDelta, zeroStats]
    · intro _
      rw [hr]
      simp [jsDelta, zeroStats]
    · intro hc
      exact absurd (Or.inl hcl) hc
  · have hcl : classify f.name = .compressJSON :=
      classify_eq_compressJSON.mpr ⟨hd, hnjs, hjson⟩
    refine ⟨?_, ?_, ?_⟩
    · rw [hr]
      simp [jsonDelta, zeroStats]
    · intro _
      rw [hr]
      simp [jsonDelta, zeroStats]
    · intro hc
      exact absurd (Or.inr hcl) hc

theorem freedSumEntry_file {minify : String → Option String} {f : FileState}
    {o : FsOracle} {r : DiskOutcome × Stats}
    (h : processFileE minify f o = .ok r) :
    freedSumEntry minify (.file f o) = r.2.spaceFreed := by
  unfold freedSumEntry
  rw [fileDelta_eq h]
  by_cases hc : classify f.name = .delete
  · rw [if_pos hc]
  · rw [if_neg hc, ((processFile_counts h).2.1 hc).1]

theorem savedSumEntry_file {minify : String → Option String} {f : FileState}
    {o : FsOracle} {r : DiskOutcome × Stats}
    (h : processFileE minify f o = .ok r) :
    savedSumEntry minify (.file f o) = r.2.spaceSaved := by
  unfold savedSumEntry
  rw [fileDelta_eq h]
  by_cases hc : classify f.name = .compressJS ∨ classify f.name = .compressJSON
  · rw [if_pos hc]
  · rw [if_neg hc, ((processFile_counts h).2.2 hc).1]

mutual

theorem walkEntry_facts (minify : String → Option String) :
    ∀ (e : Entry) ds s, processEntryE minify e = .ok (ds, s) →
      s.deletedFiles + s.jsFilesCompressed + s.jsonFilesCompressed ≤ fileCountEntry e ∧
      s.spaceFreed = freedSumEntry minify e ∧
      s.spaceSaved = savedSumEntry minify e := by
  intro e ds s h
  cases e with
  | file f o =>
    simp only [processEntryE] at h
    split at h
    · next d δ heq =>
      injection h with h1
      injection h1 with hds hs
      subst hs
      exact ⟨(processFile_counts heq).1, (freedSumEntry_file heq).symm,
        (savedSumEntry_file heq).symm⟩
    · exact absurd h (by simp)
  | dir sub =>
    have hsub : processEntriesE minify sub = .ok (ds, s) := h
    have := walkEntries_facts minify sub ds s hsub
    exact this

theorem walkEntries_facts (minify : String → Option String) :
    ∀ (es : EntryList) ds s, processEntriesE minify es = .ok (ds, s) →
      s.deletedFiles + s.jsFilesCompressed + s.jsonFilesCompressed ≤ fileCountEntries es ∧
      s.spaceFreed = freedSumEntries minify es ∧
      s.spaceSaved = savedSumEntries minify es := by
  intro es ds s h
  cases es with
  | nil =>
    simp only [processEntriesE] at h
    injection h with h1
    injection h1 with hds hs
    subst hs
    refine ⟨by simp [zeroStats, fileCountEntries], ?_, ?_⟩ <;>
      simp [zeroStats, freedSumEntries, savedSumEntries]
  | cons e es2 =>
    simp only [processEntriesE] at h
    split at h
    · exact absurd h (by simp)
    · next ds1 s1 heq1 =>
      split at h
      · next ds2 s2 heq2 =>
        injection h with h1
        injection h1 with hds hs
        subst hs
        have f1 := walkEntry_facts minify e ds1 s1 heq1
        have f2 := walkEntries_facts minify es2 ds2 s2 heq2
        refine ⟨?_, ?_, ?_⟩
        · simp only [Stats.add, fileCountEntries]
          omega
        · simp only [Stats.add, freedSumEntries, f1.2.1, f2.2.1]
        · simp only [Stats.add, savedSumEntries, f1.2.2, f2.2.2]
      · exact absurd h (by simp)

end

/-! ## The claims -/

/-- C1: the claim states that when removal of a Delete-classified file fails,
`deletedFiles` and `spaceFreed` are not incremented. The code violates this:
`fs.unlink(...).catch(...)` only logs the error (src/bin/index.js line 68) and
lines 70-71 then increment `deletedFiles` and add the stat size to
`spaceFreed` unconditionally. At a `readme.md` whose unlink fails, the file
stays on disk yet the statistics record one deleted file and its full size as
freed. -/
theorem claim_C1 :
    processFileE minNone fileReadme oUnlinkFails =
      .ok (.kept "# readme",
        { jsFilesCompressed := 0
          jsonFilesCompressed := 0
          deletedFiles := 1
          spaceSaved := 0
          spaceFreed := 2048 }) := by
  rfl

/-- C2 counterexample: with a failing package-manager reinstall the walker is
never invoked, but the summary is still emitted (with the zero statistics):
`deleteAndCompress` catches the error (src/bin/index.js lines 34-36), so its
promise resolves and the `.then` of line 136 prints the summary. The claim's
"no statistics summary is emitted" is false at this input. -/
theorem claim_C2_counterexample :
    (runProgram inpNpmFails).walkerInvoked = false ∧
    (runProgram inpNpmFails).summary ≠ none := by
  exact ⟨rfl, by simp [runProgram, inpNpmFails]⟩

/-- C2 (amended): if the target-directory removal or the reinstall fails, the
tree walker is never invoked and the statistics stay at their initial zero
values, but the summary line is still emitted, showing those zero statistics. -/
theorem claim_C2 (inp : RunInput)
    (h : inp.rmFails = true ∨ inp.npmFails = true) :
    (runProgram inp).walkerInvoked = false ∧
    (runProgram inp).summary = some zeroStats := by
  unfold runProgram
  rcases h with h | h
  · rw [if_pos h]
    exact ⟨rfl, rfl⟩
  · by_cases h1 : inp.rmFails = true
    · rw [if_pos h1]
      exact ⟨rfl, rfl⟩
    · rw [if_neg h1, if_pos h]
      exact ⟨rfl, rfl⟩

theorem claim_C2_witness :
    (inpNpmFails.rmFails = true ∨ inpNpmFails.npmFails = true) ∧
    ((runProgram inpNpmFails).walkerInvoked = false ∧
     (runProgram inpNpmFails).summary = some zeroStats) :=
  ⟨Or.inr rfl, claim_C2 _ (Or.inr rfl)⟩

/-- C3: the walk is failure-isolated for the enumerated per-file errors: over
a tree holding a file whose deletion fails, a file whose read fails, a file
whose JSON text does not parse and a file whose minification throws, the walk
still completes (`Except.ok`) and processes every file, including a later
sibling that is successfully compacted. However, the claim's "no statistics
recorded for the failed file" is violated for the deletion failure: the code
(lines 68-71) still counts the kept `readme.md` as deleted and adds its size
to `spaceFreed`. -/
theorem claim_C3 :
    processEntriesE minNone treeMixed =
      .ok ([.kept "# readme", .kept "oops", .kept "var x = 1;", .kept "zzz",
            .kept "[1,2]"], statsMixed) := by
  rfl

/-- C4: for a compress-classified file the disk is overwritten only with
strictly shorter content; on a tie, longer output, parse failure or any other
failure it is left byte-for-byte unchanged with no counters moved; a
successful overwrite records exactly `originalLength - newLength` into
`spaceSaved` and increments exactly the matching per-kind counter. -/
theorem claim_C4 (minify : String → Option String) (f : FileState) (o : FsOracle)
    (h : classify f.name = .compressJS ∨ classify f.name = .compressJSON) :
    processFileE minify f o = .ok (.kept f.content, zeroStats) ∨
    ∃ c : String, c.length < f.content.length ∧
      processFileE minify f o = .ok (.kept c,
        if classify f.name = .compressJS then jsDelta (f.content.length - c.length)
        else jsonDelta (f.content.length - c.length)) :=
  processFile_compress_spec minify f o h

theorem claim_C4_witness :
    (classify fileDataJson.name = .compressJS ∨
      classify fileDataJson.name = .compressJSON) ∧
    (processFileE minNone fileDataJson noFailure =
        .ok (.kept fileDataJson.content, zeroStats) ∨
      ∃ c : String, c.length < fileDataJson.content.length ∧
        processFileE minNone fileDataJson noFailure =
          .ok (.kept c,
            if classify fileDataJson.name = .compressJS
            then jsDelta (fileDataJson.content.length - c.length)
            else jsonDelta (fileDataJson.content.length - c.length))) :=
  ⟨Or.inr rfl, claim_C4 minNone fileDataJson noFailure (Or.inr rfl)⟩

/-- C5: the classifier is a pure total function of the file name returning
exactly one of the four decisions: Delete exactly when the final extension is
`.md` or `.ts` or the lowercased name is in the fixed lint-filename set,
CompressJS exactly when (otherwise) the extension is `.js`, CompressJSON
exactly when (otherwise) it is `.json`, and Skip exactly otherwise; the
decision depends on nothing but the name. -/
theorem claim_C5 (name : String) :
    (classify name = .delete ↔
      (extname name = EXT_MD ∨ extname name = EXT_TS ∨
        strToLower name ∈ ESLINT_FILES)) ∧
    (classify name = .compressJS ↔
      (¬(extname name = EXT_MD ∨ extname name = EXT_TS ∨
          strToLower name ∈ ESLINT_FILES) ∧ extname name = EXT_JS)) ∧
    (classify name = .compressJSON ↔
      (¬(extname name = EXT_MD ∨ extname name = EXT_TS ∨
          strToLower name ∈ ESLINT_FILES) ∧ ¬extname name = EXT_JS ∧
        extname name = EXT_JSON)) ∧
    (classify name = .skip ↔
      (¬(extname name = EXT_MD ∨ extname name = EXT_TS ∨
          strToLower name ∈ ESLINT_FILES) ∧ ¬extname name = EXT_JS ∧
        ¬extname name = EXT_JSON)) :=
  ⟨classify_eq_delete, classify_eq_compressJS, classify_eq_compressJSON,
    classify_eq_skip⟩

/-- C6: a file handed to the JS compressor whose text contains an `import` or
`export` statement marker (the word followed by a whitespace character) is
skipped entirely: the file is left untouched and no statistics change. -/
theorem claim_C6 (minify : String → Option String) (f : FileState) (o : FsOracle)
    (h1 : classify f.name = .compressJS)
    (h2 : hasImportExportMarker f.content = true) :
    processFileE minify f o = .ok (.kept f.content, zeroStats) := by
  obtain ⟨hd, hjs⟩ := classify_eq_compressJS.mp h1
  rw [processFileE_not_delete hd, compressFileE_js hjs]
  unfold compressJavaScriptFileE
  by_cases hr : o.readFails = true
  · rw [if_pos hr]
  · rw [if_neg hr, if_pos h2]

theorem claim_C6_witness :
    classify fileIndexJs.name = .compressJS ∧
    hasImportExportMarker fileIndexJs.content = true ∧
    processFileE minX fileIndexJs noFailure =
      .ok (.kept fileIndexJs.content, zeroStats) :=
  ⟨rfl, rfl, claim_C6 minX fileIndexJs noFailure rfl rfl⟩

/-- C7: over any completed walk, deleted plus compressed counts never exceed
the number of files visited, `spaceFreed` is exactly the sum of the per-file
contributions of Delete-classified files, and `spaceSaved` is exactly the sum
of the per-file contributions of CompressJS/CompressJSON-classified files. -/
theorem claim_C7 (minify : String → Option String) (es : EntryList)
    (ds : List DiskOutcome) (s : Stats)
    (h : processEntriesE minify es = .ok (ds, s)) :
    s.deletedFiles + s.jsFilesCompressed + s.jsonFilesCompressed ≤
      fileCountEntries es ∧
    s.spaceFreed = freedSumEntries minify es ∧
    s.spaceSaved = savedSumEntries minify es :=
  walkEntries_facts minify es ds s h

theorem claim_C7_witness :
    processEntriesE minNone treeSmall = .ok ([.deleted, .kept "[1,2]"], statsSmall) ∧
    (statsSmall.deletedFiles + statsSmall.jsFilesCompressed +
        statsSmall.jsonFilesCompressed ≤ fileCountEntries treeSmall ∧
      statsSmall.spaceFreed = freedSumEntries minNone treeSmall ∧
      statsSmall.spaceSaved = savedSumEntries minNone treeSmall) :=
  ⟨rfl, claim_C7 minNone treeSmall _ _ rfl⟩

/-- C8: for any text that parses as JSON, parsing the compacted output of the
JSON compressor yields a value equal to the value parsed from the original
text. -/
theorem claim_C8 (t : String) (v : Json) (h : jsonParse t = some v) :
    jsonParse (jsonStringify v) = some v :=
  jsonParse_stringify (jsonParse_canon h)

theorem claim_C8_witness :
    jsonParse "[1, 2]" = some vC8 ∧
    jsonParse (jsonStringify vC8) = some vC8 :=
  ⟨rfl, claim_C8 "[1, 2]" vC8 rfl⟩

/-- C9: extension matching is case-sensitive although lint-filename matching
is case-insensitive: a name whose final extension is a non-lowercase variant
of `.md`, `.ts`, `.js` or `.json`, and whose lowercased name is not in the
lint set, is classified Skip, so it is neither deleted nor compressed. -/
theorem claim_C9 (name : String)
    (h1 : strToLower (extname name) = EXT_MD ∨ strToLower (extname name) = EXT_TS ∨
      strToLower (extname name) = EXT_JS ∨ strToLower (extname name) = EXT_JSON)
    (h2 : ¬extname name = strToLower (extname name))
    (h3 : ¬strToLower name ∈ ESLINT_FILES) :
    classify name = .skip := by
  have hmd : ¬extname name = EXT_MD := fun he => h2 (by rw [he]; rfl)
  have hts : ¬extname name = EXT_TS := fun he => h2 (by rw [he]; rfl)
  have hjs : ¬extname name = EXT_JS := fun he => h2 (by rw [he]; rfl)
  have hjson : ¬extname name = EXT_JSON := fun he => h2 (by rw [he]; rfl)
  refine classify_eq_skip.mpr ⟨fun hd => ?_, hjs, hjson⟩
  rcases hd with hd | hd | hd
  exacts [hmd hd, hts hd, h3 hd]

theorem claim_C9_witness :
    (strToLower (extname "README.MD") = EXT_MD ∨
      strToLower (extname "README.MD") = EXT_TS ∨
      strToLower (extname "README.MD") = EXT_JS ∨
      strToLower (extname "README.MD") = EXT_JSON) ∧
    ¬extname "README.MD" = strToLower (extname "README.MD") ∧
    ¬strToLower "README.MD" ∈ ESLINT_FILES ∧
    classify "README.MD" = .skip :=
  ⟨Or.inl rfl, by decide, by decide,
    claim_C9 "README.MD" (Or.inl rfl) (by decide) (by decide)⟩

/-- C10: a JS file whose minification result is the empty string is left
unchanged and not counted, even though the empty output is strictly shorter:
the write-back requires a truthy (nonempty) `result.code` in addition to
being strictly shorter (src/bin/index.js line 110). -/
theorem claim_C10 (minify : String → Option String) (f : FileState) (o : FsOracle)
    (h1 : classify f.name = .compressJS)
    (h2 : minify f.content = some "") :
    processFileE minify f o = .ok (.kept f.content, zeroStats) := by
  obtain ⟨hd, hjs⟩ := classify_eq_compressJS.mp h1
  rw [processFileE_not_delete hd, compressFileE_js hjs]
  unfold compressJavaScriptFileE
  by_cases hr : o.readFails = true
  · rw [if_pos hr]
  · rw [if_neg hr]
    by_cases hm : hasImportExportMarker f.content = true
    · rw [if_pos hm]
    · rw [if_neg hm, h2]
      dsimp only
      rw [if_neg (by simp)]

theorem claim_C10_witness :
    classify fileTinyJs.name = .compressJS ∧
    minEmpty fileTinyJs.content = some "" ∧
    processFileE minEmpty fileTinyJs noFailure =
      .ok (.kept fileTinyJs.content, zeroStats) :=
  ⟨rfl, rfl, claim_C10 minEmpty fileTinyJs noFailure rfl rfl⟩

end MinifyModules
